import Mathlib

/-!
# helm-spruce: the argument rewriter and the value merger of `runHelm`

A shallow embedding of `main.go`.  Command-line tokens are `String`s, read as
sequences of code points, which is how Go's `regexp` reads a token; the loop
of `runHelm` over `os.Args[1:]` is a recursive function over the remaining
tokens that threads the three loop variables `sourceValueFiles`, `helmArgs`
and `firstValueReplaced`.  Everything outside the process (the file system,
the YAML codec, `mergo`, `spruce`, the Helm binary) is a field of `World`, and
every call to it is logged in a trace so that "is never read" and "is not
performed" are statements about that trace.  The merge itself is a library
call; where a claim is about what it computes, it is modelled from the
specification (`mergoMergeWithOverride`).
-/

namespace HelmSpruce

/-! ## Flag matcher: `valuesArgRegexp` -/

/-- The remainder of `s` after the literal `lit`, when `s` starts with it. -/
def afterLiteral : List Char → List Char → Option (List Char)
  | [], s => some s
  | _ :: _, [] => none
  | c :: lit, d :: s => if c = d then afterLiteral lit s else none

/-- The group `(.+)` followed by `$`: one or more characters up to the end of
the text, none of them a line feed (Go's `.` excludes `\n` unless the `s` flag
is set, and it is not). -/
def dotPlus (v : List Char) : Bool :=
  !v.isEmpty && v.all (fun c => c != '\n')

/-- `valuesArgRegexp.FindStringSubmatch(arg)` for
`^(-f|--values)(?:=(.+))?$`: `none` is Go's `nil`; `some (g1, g2)` holds the
submatches `[1]` and `[2]`, the latter `""` when the optional group did not
take part. -/
def valuesArgRegexp (arg : String) : Option (String × String) :=
  if arg = "-f" then some ("-f", "")
  else if arg = "--values" then some ("--values", "")
  else
    match afterLiteral "-f=".data arg.data with
    | some v => if dotPlus v then some ("-f", String.mk v) else none
    | none =>
      match afterLiteral "--values=".data arg.data with
      | some v => if dotPlus v then some ("--values", String.mk v) else none
      | none => none

/-! ## Argument rewriter: the labelled loop of `runHelm` -/

/-- `destValueFile := fmt.Sprintf("%s/%s", temporaryDirectory, "values.yaml")`. -/
def destValueFile (temporaryDirectory : String) : String :=
  temporaryDirectory ++ "/" ++ "values.yaml"

/-- The variables the loop updates. -/
structure LoopState where
  sourceValueFiles : List String
  helmArgs : List String
  firstValueReplaced : Bool
  deriving DecidableEq, Repr

/-- The state before the loop: two empty slices and `false`. -/
def LoopState.init : LoopState :=
  { sourceValueFiles := [], helmArgs := [], firstValueReplaced := false }

/-- The loop `for args := os.Args[1:]; len(args) > 0; args = args[1:]`, by
recursion on `args`.  `dest` is `destValueFile`. -/
def rewriteLoop (dest : String) : List String → LoopState → LoopState
  | [], st => st
  | arg :: rest, st =>
    match valuesArgRegexp arg with
    | none => rewriteLoop dest rest { st with helmArgs := st.helmArgs ++ [arg] }
    | some (flag, inlineValue) =>
      if inlineValue.length > 0 then
        -- case len(valuesArgRegexpMatches[2]) > 0: filename = valuesArgRegexpMatches[2]
        let st1 := { st with sourceValueFiles := st.sourceValueFiles ++ [inlineValue] }
        if st.firstValueReplaced then
          rewriteLoop dest rest st1
        else
          rewriteLoop dest rest
            { st1 with helmArgs := st1.helmArgs ++ [flag ++ "=" ++ dest],
                       firstValueReplaced := true }
      else
        match rest with
        | [] => st                       -- default: break loop
        | filename :: rest2 =>           -- case len(args) > 1: filename = args[1]
          let st1 := { st with sourceValueFiles := st.sourceValueFiles ++ [filename] }
          if st.firstValueReplaced then
            rewriteLoop dest rest2 st1
          else
            rewriteLoop dest rest2
              { st1 with helmArgs := (st1.helmArgs ++ [arg]) ++ [dest],
                         firstValueReplaced := true }

/-- The rewriter as run by `runHelm`: the loop from its initial state, with
`destValueFile` built from the temporary directory. -/
def rewriteArgs (temporaryDirectory : String) (args : List String) : LoopState :=
  rewriteLoop (destValueFile temporaryDirectory) args LoopState.init

/-! ## The scan, token by token

The claims speak of tokens that are *scanned*, *consumed as a value* or *bare
in last position*.  `annotate` labels every token of an argument list with the
role it has in the left-to-right scan; the functions after it read the labels.
-/

/-- What a token is to the scan. -/
inductive Role where
  /-- scanned, not a value-file flag -/
  | ordinary
  /-- scanned, `flag=value` -/
  | inlineFlag (flag value : String)
  /-- scanned, a bare flag whose value is the next token -/
  | bareFlag (value : String)
  /-- not scanned: the value of the bare flag before it -/
  | consumedValue
  /-- scanned, a bare flag with no token after it -/
  | trailingBare
  deriving DecidableEq, Repr

/-- The path a token contributes to the source list, if any. -/
def Role.value? : Role → Option String
  | .inlineFlag _ v => some v
  | .bareFlag v => some v
  | _ => none

/-- Every token with its role. -/
def annotate : List String → List (String × Role)
  | [] => []
  | arg :: rest =>
    match valuesArgRegexp arg with
    | none => (arg, Role.ordinary) :: annotate rest
    | some (flag, inlineValue) =>
      if inlineValue.length > 0 then
        (arg, Role.inlineFlag flag inlineValue) :: annotate rest
      else
        match rest with
        | [] => [(arg, Role.trailingBare)]
        | next :: rest2 =>
          (arg, Role.bareFlag next) :: (next, Role.consumedValue) :: annotate rest2

/-- The paths of the recorded references, left to right. -/
def recorded (args : List String) : List String :=
  (annotate args).filterMap (fun p => p.2.value?)

/-- The tokens that are neither a scanned value-file flag nor a consumed
value, left to right. -/
def ordinaryTokens (args : List String) : List String :=
  (annotate args).filterMap (fun p =>
    match p.2 with
    | Role.ordinary => some p.1
    | _ => none)

/-- What a label says about its token `p.1`, given the labelled tokens
`before` and `after` it: an ordinary token is not matched; an inline flag is
matched with that spelling and that non-empty value; a bare flag is matched
with no inline value and is followed by its value, labelled as consumed; a
trailing bare flag is matched with no inline value and is last; a consumed
value comes right after the bare flag that names it. -/
def labelFits (before : List (String × Role)) (p : String × Role)
    (after : List (String × Role)) : Prop :=
  match p.2 with
  | Role.ordinary => valuesArgRegexp p.1 = none
  | Role.inlineFlag flag value => valuesArgRegexp p.1 = some (flag, value) ∧ value ≠ ""
  | Role.bareFlag value =>
    (∃ flag, valuesArgRegexp p.1 = some (flag, "")) ∧
      ∃ rest, after = (value, Role.consumedValue) :: rest
  | Role.trailingBare => (∃ flag, valuesArgRegexp p.1 = some (flag, "")) ∧ after = []
  | Role.consumedValue => ∃ front q, before = front ++ [q] ∧ q.2 = Role.bareFlag p.1

/-- What a fresh loop appends to `helmArgs`. -/
def emitted (dest : String) : List String → List String
  | [] => []
  | arg :: rest =>
    match valuesArgRegexp arg with
    | none => arg :: emitted dest rest
    | some (flag, inlineValue) =>
      if inlineValue.length > 0 then
        (flag ++ "=" ++ dest) :: ordinaryTokens rest
      else
        match rest with
        | [] => []
        | _ :: rest2 => arg :: dest :: ordinaryTokens rest2

/-! ## Documents -/

/-- A parsed YAML value: what `yaml.Unmarshal` puts into an `interface{}`. -/
inductive Value where
  /-- a scalar, by its text -/
  | scalar (text : String)
  /-- an ordered sequence -/
  | sequence (items : List Value)
  /-- a mapping from string keys to values -/
  | mapping (entries : List (String × Value))
  deriving Repr

/-- A `map[string]interface{}`, as its entries; the value of a key is the one
`List.lookup` finds.  The `nil` map and the empty map are both `[]`. -/
abbrev Document := List (String × Value)

/-! ## The world outside the process -/

/-- One call that leaves the process. -/
inductive Event where
  | lookPath (file : String)
  | tempDir (pattern : String)
  | readFile (name : String)
  | unmarshal (name : String)
  | merge (name : String)
  | eval
  | marshal
  | writeFile (name data : String)
  | run (helmPath : String) (args : List String)
  | removeAll (dir : String)
  deriving DecidableEq, Repr

/-- Everything `runHelm` reads from or calls outside itself.  A result
`Except.error e` is a Go `err != nil` whose text is `e`. -/
structure World where
  /-- `path.Base(os.Args[0])` -/
  executableName : String
  /-- `os.Args[1:]` -/
  args : List String
  /-- `exec.LookPath` -/
  lookPath : String → Except String String
  /-- `ioutil.TempDir("", pattern)` -/
  tempDir : String → Except String String
  /-- `os.RemoveAll` -/
  removeAll : String → Except String Unit
  /-- `ioutil.ReadFile` -/
  readFile : String → Except String String
  /-- `yaml.Unmarshal` into a `map[string]interface{}`; `none` is the `nil` map -/
  unmarshal : String → Except String (Option Document)
  /-- `mergo.Merge(&mergedValues, values, mergo.WithOverride)` -/
  merge : Document → Document → Except String Document
  /-- `spruce.Eval(&mergedValues, false, []string{})` -/
  eval : Document → Except String Document
  /-- `yaml.Marshal` -/
  marshal : Document → Except String String
  /-- `ioutil.WriteFile(name, data, 0644)` -/
  writeFile : String → String → Except String Unit
  /-- `exec.Command(helmPath, helmArgs...).Run()` -/
  run : String → List String → Except String Unit

/-- `helmCmdRegex.MatchString(s)` for `^.*helm[23]?$`. -/
def helmCmdRegex (s : String) : Bool :=
  s.data.all (fun c => c != '\n') &&
    ("helm".data.isSuffixOf s.data || "helm2".data.isSuffixOf s.data ||
      "helm3".data.isSuffixOf s.data)

/-- The loop `for _, valueFile := range sourceValueFiles`: the merged values or
the error it returns with, and the calls it made. -/
def mergeLoop (w : World) : List String → Document → Except String Document × List Event
  | [], mergedValues => (Except.ok mergedValues, [])
  | valueFile :: files, mergedValues =>
    match w.readFile valueFile with
    | Except.error err =>
      (Except.error ("failed to open values file '" ++ valueFile ++ "': " ++ err),
        [Event.readFile valueFile])
    | Except.ok data =>
      match w.unmarshal data with
      | Except.error err =>
        (Except.error ("failed to parse values file '" ++ valueFile ++ "' as yaml: " ++ err),
          [Event.readFile valueFile, Event.unmarshal valueFile])
      | Except.ok parsed =>
        -- if values == nil { values = make(map[string]interface{}) }
        let values : Document := parsed.getD []
        match w.merge mergedValues values with
        | Except.error err =>
          (Except.error ("failed to merge values file '" ++ valueFile ++ "': " ++ err),
            [Event.readFile valueFile, Event.unmarshal valueFile, Event.merge valueFile])
        | Except.ok merged =>
          let r := mergeLoop w files merged
          (r.1, [Event.readFile valueFile, Event.unmarshal valueFile, Event.merge valueFile]
                  ++ r.2)

/-- The last step of `runHelm`: run Helm with the rewritten arguments. -/
def invokeHelm (w : World) (helmPath : String) (helmArgs : List String) :
    List String × List Event :=
  match w.run helmPath helmArgs with
  | Except.error err => (["failed to run Helm: " ++ err], [Event.run helmPath helmArgs])
  | Except.ok _ => ([], [Event.run helmPath helmArgs])

/-- The block `if len(sourceValueFiles) > 0 { ... }` followed by the call of
Helm. -/
def evalWriteRun (w : World) (helmPath dest : String) (st : LoopState)
    (mergedValues : Document) : List String × List Event :=
  if st.sourceValueFiles.length > 0 then
    match w.eval mergedValues with
    | Except.error err =>
      (["failed to eval merged helm values with spruce: " ++ err], [Event.eval])
    | Except.ok evaluated =>
      match w.marshal evaluated with
      | Except.error err =>
        (["failed to marshal merged and evaluated helm values to yaml: " ++ err],
          [Event.eval, Event.marshal])
      | Except.ok data =>
        match w.writeFile dest data with
        | Except.error err =>
          (["failed to write merged and evaluated helm values to destination file '"
              ++ dest ++ "': " ++ err],
            [Event.eval, Event.marshal, Event.writeFile dest data])
        | Except.ok _ =>
          let r := invokeHelm w helmPath st.helmArgs
          (r.1, [Event.eval, Event.marshal, Event.writeFile dest data] ++ r.2)
  else
    invokeHelm w helmPath st.helmArgs

/-- The part of `runHelm` after the temporary directory exists and before
the deferred cleanup: rewrite the arguments, merge, evaluate, write, run. -/
def runHelmBody (w : World) (helmPath temporaryDirectory : String) :
    List String × List Event :=
  let st := rewriteArgs temporaryDirectory w.args
  match mergeLoop w st.sourceValueFiles [] with
  | (Except.error err, trace) => ([err], trace)
  | (Except.ok mergedValues, trace) =>
    let r := evalWriteRun w helmPath (destValueFile temporaryDirectory) st mergedValues
    (r.1, trace ++ r.2)

/-- The function `runHelm`: the errors it returns and the calls it made, in
order. -/
def runHelm (w : World) : List String × List Event :=
  let name := if helmCmdRegex w.executableName then "_" ++ w.executableName else "helm"
  match w.lookPath name with
  | Except.error _ => (["failed to find Helm binary '" ++ name ++ "'"], [Event.lookPath name])
  | Except.ok helmPath =>
    let pattern := w.executableName ++ "."
    match w.tempDir pattern with
    | Except.error err =>
      (["failed to create temporary directory: " ++ err],
        [Event.lookPath name, Event.tempDir pattern])
    | Except.ok temporaryDirectory =>
      let r := runHelmBody w helmPath temporaryDirectory
      -- the deferred os.RemoveAll(temporaryDirectory)
      match w.removeAll temporaryDirectory with
      | Except.error err =>
        (r.1 ++ ["failed to remove temporary directory '" ++ temporaryDirectory ++ "': " ++ err],
          [Event.lookPath name, Event.tempDir pattern] ++ r.2
            ++ [Event.removeAll temporaryDirectory])
      | Except.ok _ =>
        (r.1, [Event.lookPath name, Event.tempDir pattern] ++ r.2
                ++ [Event.removeAll temporaryDirectory])

/-- The exit code `main` passes to `os.Exit`: it starts at 0 and every error
of `runHelm` sets it to 1. -/
def main (w : World) : Nat :=
  (runHelm w).1.foldl (fun _ _ => 1) 0

/-! ## The merge, from the specification -/

/-- Modelled from the spec: the assignment `dst[k] = v` on a mapping, which
the library merge performs and whose source is not part of the repository.
The entry is replaced in place when the key is there and added at the end
otherwise. -/
def setKey (k : String) (v : Value) : Document → Document
  | [] => [(k, v)]
  | (k', v') :: rest => if k' = k then (k, v) :: rest else (k', v') :: setKey k v rest

mutual
/-- Modelled from the spec: the value a key gets in
`mergo.Merge(dst, src, mergo.WithOverride)`, a library call whose source is
not part of the repository.  "If the existing accumulator value and the new
value are both mappings, merge recursively key-by-key; otherwise the new value
fully replaces whatever was previously at that key." -/
def mergeValue (old : Option Value) : Value → Value
  | Value.mapping new =>
    match old with
    | some (Value.mapping acc) => Value.mapping (mergoMergeWithOverride acc new)
    | _ => Value.mapping new
  | v => v
/-- Modelled from the spec: `mergo.Merge(&acc, new, mergo.WithOverride)`, a
library call whose source is not part of the repository.  "For each key
present in the new document" the key gets `mergeValue` of what the accumulator
holds there and the new value; every other key of the accumulator stays. -/
def mergoMergeWithOverride (acc : Document) : List (String × Value) → Document
  | [] => acc
  | (k, v) :: rest =>
    setKey k (mergeValue (acc.lookup k) v) (mergoMergeWithOverride acc rest)
end

/-- The fold of `runHelm` over the parsed documents, "starting from an empty
mapping and deep-merging each in order". -/
def mergeAll (docs : List Document) : Document :=
  docs.foldl mergoMergeWithOverride []

/-! ## Words of the claims -/

/-- A token refers to the path `dest`: it is the path, or a value-file flag
with the path as its inline value. -/
def refersTo (dest tok : String) : Bool :=
  tok == dest || tok == "-f=" ++ dest || tok == "--values=" ++ dest

/-- The file an event reads, if it is a read. -/
def Event.readName? : Event → Option String
  | Event.readFile name => some name
  | _ => none

/-- The event belongs to the merge, the evaluation, the serialization or the
write of the synthesized file. -/
def Event.touchesValues : Event → Bool
  | Event.readFile _ => true
  | Event.unmarshal _ => true
  | Event.merge _ => true
  | Event.eval => true
  | Event.marshal => true
  | Event.writeFile _ _ => true
  | _ => false

/-- The event is the evaluation, the serialization, the write of the
synthesized file or the invocation of Helm. -/
def Event.isDownstream : Event → Bool
  | Event.eval => true
  | Event.marshal => true
  | Event.writeFile _ _ => true
  | Event.run _ _ => true
  | _ => false

/-- The error `runHelm` reports for a file that cannot be read or, when it
can be read, cannot be parsed; `none` for a file that is read and parsed. -/
def fileError (w : World) (valueFile : String) : Option String :=
  match w.readFile valueFile with
  | Except.error err => some ("failed to open values file '" ++ valueFile ++ "': " ++ err)
  | Except.ok data =>
    match w.unmarshal data with
    | Except.error err =>
      some ("failed to parse values file '" ++ valueFile ++ "' as yaml: " ++ err)
    | Except.ok _ => none

/-- The file `valueFile` is read and parsed, and `doc` is what the loop of
`runHelm` merges for it (the empty mapping for a `nil` map). -/
def parsesTo (w : World) (valueFile : String) (doc : Document) : Prop :=
  ∃ data parsed, w.readFile valueFile = Except.ok data ∧
    w.unmarshal data = Except.ok parsed ∧ parsed.getD [] = doc

/-- A world for the examples: Helm is found, the temporary directory is
`/tmp/helm.1`, the readable files and the parsable contents are listed, the
merge is the one of the specification, and every other call succeeds. -/
def sampleWorld (args : List String) (files : List (String × String))
    (contents : List (String × Document)) : World where
  executableName := "helm"
  args := args
  lookPath := fun file => Except.ok ("/usr/bin/" ++ file)
  tempDir := fun _ => Except.ok "/tmp/helm.1"
  removeAll := fun _ => Except.ok ()
  readFile := fun name =>
    match files.lookup name with
    | some data => Except.ok data
    | none => Except.error "no such file or directory"
  unmarshal := fun data =>
    match contents.lookup data with
    | some doc => Except.ok (some doc)
    | none => Except.error "yaml: did not find expected key"
  merge := fun acc new => Except.ok (mergoMergeWithOverride acc new)
  eval := fun doc => Except.ok doc
  marshal := fun _ => Except.ok "merged"
  writeFile := fun _ _ => Except.ok ()
  run := fun _ _ => Except.ok ()

/-! ## Lemmas on the matcher -/

theorem afterLiteral_eq_some {lit s v : List Char} (h : afterLiteral lit s = some v) :
    s = lit ++ v := by
  induction lit generalizing s with
  | nil => simp [afterLiteral] at h; simp [h]
  | cons c lit ih =>
    cases s with
    | nil => simp [afterLiteral] at h
    | cons d s =>
      simp only [afterLiteral] at h
      split at h
      · rename_i hcd
        subst hcd
        simp [ih h]
      · simp at h

theorem afterLiteral_append (lit v : List Char) : afterLiteral lit (lit ++ v) = some v := by
  induction lit with
  | nil => simp [afterLiteral]
  | cons c lit ih => simp [afterLiteral, ih]

/-- A match gives back the token: group 1 is one of the two spellings, and the
token is group 1 alone or group 1, `=`, group 2. -/
theorem valuesArgRegexp_some {arg flag v : String} (h : valuesArgRegexp arg = some (flag, v)) :
    (flag = "-f" ∨ flag = "--values") ∧
      ((v = "" ∧ arg = flag) ∨ (v ≠ "" ∧ arg = flag ++ "=" ++ v)) := by
  unfold valuesArgRegexp at h
  split at h
  · rename_i h1
    simp at h
    obtain ⟨rfl, rfl⟩ := h
    exact ⟨Or.inl rfl, Or.inl ⟨rfl, h1⟩⟩
  · split at h
    · rename_i h2
      simp at h
      obtain ⟨rfl, rfl⟩ := h
      exact ⟨Or.inr rfl, Or.inl ⟨rfl, h2⟩⟩
    · split at h
      · rename_i w hw
        split at h
        · rename_i hd
          simp at h
          obtain ⟨rfl, rfl⟩ := h
          refine ⟨Or.inl rfl, Or.inr ⟨?_, ?_⟩⟩
          · intro hv
            have : w = [] := by simpa using congrArg String.data hv
            subst this
            simp [dotPlus] at hd
          · apply String.ext
            rw [afterLiteral_eq_some hw]
            simp [String.data_append]
        · simp at h
      · split at h
        · rename_i w hw
          split at h
          · rename_i hd
            simp at h
            obtain ⟨rfl, rfl⟩ := h
            refine ⟨Or.inr rfl, Or.inr ⟨?_, ?_⟩⟩
            · intro hv
              have : w = [] := by simpa using congrArg String.data hv
              subst this
              simp [dotPlus] at hd
            · apply String.ext
              rw [afterLiteral_eq_some hw]
              simp [String.data_append]
          · simp at h
        · simp at h

theorem length_pos_iff_ne_empty (v : String) : v.length > 0 ↔ v ≠ "" := by
  cases v with
  | mk cs =>
    cases cs with
    | nil => simp [String.length]
    | cons c cs =>
      simp only [String.length, List.length_cons, gt_iff_lt, Nat.zero_lt_succ, true_iff]
      intro h
      have := congrArg String.data h
      simp at this

/-- A token that is neither spelling alone nor a spelling, `=` and a
non-empty value is not matched. -/
theorem valuesArgRegexp_none_of_form {arg : String}
    (h1 : arg ≠ "-f") (h2 : arg ≠ "--values")
    (h3 : ∀ v : String, v ≠ "" → arg ≠ "-f=" ++ v)
    (h4 : ∀ v : String, v ≠ "" → arg ≠ "--values=" ++ v) :
    valuesArgRegexp arg = none := by
  cases hm : valuesArgRegexp arg with
  | none => rfl
  | some p =>
    obtain ⟨flag, v⟩ := p
    obtain ⟨hf, hv⟩ := valuesArgRegexp_some hm
    rcases hv with ⟨_, ha⟩ | ⟨hne, ha⟩
    · rcases hf with rfl | rfl
      · exact absurd ha h1
      · exact absurd ha h2
    · rcases hf with rfl | rfl
      · exact absurd ha (h3 v hne)
      · exact absurd ha (h4 v hne)

/-- The group `(.+)` does not take a line feed: such a token is not matched,
and neither is a spelling followed by `=` alone. -/
theorem valuesArgRegexp_line_feed :
    valuesArgRegexp "-f=a\nb" = none ∧ valuesArgRegexp "--values=" = none ∧
      valuesArgRegexp "-f=a b" = some ("-f", "a b") := by
  decide

/-- A spelling, `=` and a non-empty value without line feed is matched, with
that spelling and that value. -/
theorem valuesArgRegexp_inline (flag v : String) (hf : flag = "-f" ∨ flag = "--values")
    (hv : dotPlus v.data = true) :
    valuesArgRegexp (flag ++ "=" ++ v) = some (flag, v) := by
  rcases hf with rfl | rfl
  · have h1 : ("-f" ++ "=" ++ v : String) ≠ "-f" := by
      intro h
      have := congrArg String.data h
      simp [String.data_append] at this
    have h2 : ("-f" ++ "=" ++ v : String) ≠ "--values" := by
      intro h
      have := congrArg String.data h
      simp [String.data_append] at this
    have h3 : ("-f" ++ "=" ++ v : String).data = "-f=".data ++ v.data := by
      simp [String.data_append]
    unfold valuesArgRegexp
    simp only [h1, h2, if_false, h3, afterLiteral_append, hv, if_true]
  · have h1 : ("--values" ++ "=" ++ v : String) ≠ "-f" := by
      intro h
      have := congrArg String.data h
      simp [String.data_append] at this
    have h2 : ("--values" ++ "=" ++ v : String) ≠ "--values" := by
      intro h
      have := congrArg String.data h
      simp [String.data_append] at this
    have h3 : ("--values" ++ "=" ++ v : String).data = "--values=".data ++ v.data := by
      simp [String.data_append]
    have h4 : afterLiteral "-f=".data ("--values=".data ++ v.data) = none := by
      simp [afterLiteral]
    unfold valuesArgRegexp
    simp only [h1, h2, if_false, h3, h4, afterLiteral_append, hv, if_true]

theorem dotPlus_destValueFile (tmp : String) (h : ∀ c ∈ tmp.data, c ≠ '\n') :
    dotPlus (destValueFile tmp).data = true := by
  simp only [destValueFile, dotPlus, String.data_append]
  simpa using h

/-! ## Lemmas on the loop -/

/-- One iteration of the loop, unfolded. -/
theorem rewriteLoop_cons (dest : String) (arg : String) (rest : List String) (st : LoopState) :
    rewriteLoop dest (arg :: rest) st =
      match valuesArgRegexp arg with
      | none => rewriteLoop dest rest { st with helmArgs := st.helmArgs ++ [arg] }
      | some (flag, inlineValue) =>
        if inlineValue.length > 0 then
          if st.firstValueReplaced then
            rewriteLoop dest rest
              { st with sourceValueFiles := st.sourceValueFiles ++ [inlineValue] }
          else
            rewriteLoop dest rest
              { sourceValueFiles := st.sourceValueFiles ++ [inlineValue],
                helmArgs := st.helmArgs ++ [flag ++ "=" ++ dest],
                firstValueReplaced := true }
        else
          match rest with
          | [] => st
          | filename :: rest2 =>
            if st.firstValueReplaced then
              rewriteLoop dest rest2
                { st with sourceValueFiles := st.sourceValueFiles ++ [filename] }
            else
              rewriteLoop dest rest2
                { sourceValueFiles := st.sourceValueFiles ++ [filename],
                  helmArgs := (st.helmArgs ++ [arg]) ++ [dest],
                  firstValueReplaced := true } := by
  cases rest with
  | nil =>
    cases hm : valuesArgRegexp arg with
    | none =>
      delta rewriteLoop
      dsimp only
      rw [hm]
    | some p =>
      obtain ⟨f, v⟩ := p
      delta rewriteLoop
      dsimp only
      rw [hm]
  | cons a b =>
    cases hm : valuesArgRegexp arg with
    | none =>
      delta rewriteLoop
      dsimp only
      rw [hm]
    | some p =>
      obtain ⟨f, v⟩ := p
      delta rewriteLoop
      dsimp only
      rw [hm]

/-- The labelling of a non-empty list, unfolded. -/
theorem annotate_cons (arg : String) (rest : List String) :
    annotate (arg :: rest) =
      match valuesArgRegexp arg with
      | none => (arg, Role.ordinary) :: annotate rest
      | some (flag, inlineValue) =>
        if inlineValue.length > 0 then
          (arg, Role.inlineFlag flag inlineValue) :: annotate rest
        else
          match rest with
          | [] => [(arg, Role.trailingBare)]
          | next :: rest2 =>
            (arg, Role.bareFlag next) :: (next, Role.consumedValue) :: annotate rest2 := by
  cases rest with
  | nil =>
    cases hm : valuesArgRegexp arg with
    | none =>
      delta annotate
      dsimp only
      rw [hm]
    | some p =>
      obtain ⟨f, v⟩ := p
      delta annotate
      dsimp only
      rw [hm]
  | cons a b =>
    cases hm : valuesArgRegexp arg with
    | none =>
      delta annotate
      dsimp only
      rw [hm]
    | some p =>
      obtain ⟨f, v⟩ := p
      delta annotate
      dsimp only
      rw [hm]

theorem annotate_map_fst (args : List String) : (annotate args).map Prod.fst = args := by
  generalize h : args.length = n
  induction n using Nat.strong_induction_on generalizing args with
  | _ n ih =>
    cases args with
    | nil => simp [annotate]
    | cons arg rest =>
      subst h
      rw [annotate_cons]
      split
      · simp [ih rest.length (by simp) rest rfl]
      · split
        · simp [ih rest.length (by simp) rest rfl]
        · cases rest with
          | nil => simp
          | cons next rest2 =>
            simp [ih rest2.length (by simp; omega) rest2 rfl]

/-- Once the first reference has been replaced, the loop only records paths
and copies ordinary tokens. -/
theorem rewriteLoop_replaced (dest : String) (args : List String) (st : LoopState)
    (hst : st.firstValueReplaced = true) :
    rewriteLoop dest args st =
      { sourceValueFiles := st.sourceValueFiles ++ recorded args,
        helmArgs := st.helmArgs ++ ordinaryTokens args,
        firstValueReplaced := true } := by
  generalize h : args.length = n
  induction n using Nat.strong_induction_on generalizing args st with
  | _ n ih =>
    cases args with
    | nil =>
      cases st
      simp_all [rewriteLoop, recorded, ordinaryTokens, annotate]
    | cons arg rest =>
      subst h
      rw [rewriteLoop_cons]
      simp only [recorded, ordinaryTokens]
      rw [annotate_cons]
      split
      · rw [ih rest.length (by simp) rest _ (by exact hst) rfl]
        simp [recorded, ordinaryTokens, Role.value?]
      · split
        · simp only [hst, if_true]
          rw [ih rest.length (by simp) rest _ rfl rfl]
          simp [recorded, ordinaryTokens, Role.value?]
        · cases rest with
          | nil =>
            cases st
            simp_all [Role.value?]
          | cons next rest2 =>
            simp only [hst, if_true]
            rw [ih rest2.length (by simp; omega) rest2 _ rfl rfl]
            simp [recorded, ordinaryTokens, Role.value?]

/-- The loop from a state in which nothing has been replaced yet. -/
theorem rewriteLoop_fresh (dest : String) (args : List String) (st : LoopState)
    (hst : st.firstValueReplaced = false) :
    rewriteLoop dest args st =
      { sourceValueFiles := st.sourceValueFiles ++ recorded args,
        helmArgs := st.helmArgs ++ emitted dest args,
        firstValueReplaced := !(recorded args).isEmpty } := by
  induction args generalizing st with
  | nil =>
    cases st
    simp_all [rewriteLoop, recorded, emitted, annotate]
  | cons arg rest ih =>
    rw [rewriteLoop_cons]
    simp only [recorded, emitted]
    rw [annotate_cons]
    split
    · rw [ih _ (by exact hst)]
      simp [recorded, Role.value?]
    · split
      · simp only [hst, Bool.false_eq_true, if_false]
        rw [rewriteLoop_replaced dest rest _ rfl]
        simp [recorded, Role.value?]
      · cases rest with
        | nil =>
          cases st
          simp_all [Role.value?]
        | cons next rest2 =>
          simp only [hst, Bool.false_eq_true, if_false]
          rw [rewriteLoop_replaced dest rest2 _ rfl]
          simp [recorded, Role.value?]

/-- The two results of the rewriter in closed form. -/
theorem rewriteArgs_eq (tmp : String) (args : List String) :
    rewriteArgs tmp args =
      { sourceValueFiles := recorded args,
        helmArgs := emitted (destValueFile tmp) args,
        firstValueReplaced := !(recorded args).isEmpty } := by
  unfold rewriteArgs
  rw [rewriteLoop_fresh _ _ _ rfl]
  simp [LoopState.init]

/-! ## Lemmas on the roles -/

theorem recorded_cons (arg : String) (rest : List String) :
    recorded (arg :: rest) =
      match valuesArgRegexp arg with
      | none => recorded rest
      | some (_, inlineValue) =>
        if inlineValue.length > 0 then inlineValue :: recorded rest
        else
          match rest with
          | [] => []
          | next :: rest2 => next :: recorded rest2 := by
  simp only [recorded]
  rw [annotate_cons]
  split
  · simp [Role.value?]
  · split
    · simp [Role.value?]
    · cases rest <;> simp [Role.value?]

theorem ordinaryTokens_cons (arg : String) (rest : List String) :
    ordinaryTokens (arg :: rest) =
      match valuesArgRegexp arg with
      | none => arg :: ordinaryTokens rest
      | some (_, inlineValue) =>
        if inlineValue.length > 0 then ordinaryTokens rest
        else
          match rest with
          | [] => []
          | _ :: rest2 => ordinaryTokens rest2 := by
  simp only [ordinaryTokens]
  rw [annotate_cons]
  split
  · simp
  · split
    · simp
    · cases rest <;> simp

theorem ordinaryTokens_nil : ordinaryTokens [] = [] := by
  simp [ordinaryTokens, annotate]

theorem recorded_nil : recorded [] = [] := by
  simp [recorded, annotate]

/-- The ordinary tokens are a subsequence of the arguments. -/
theorem ordinaryTokens_sublist (args : List String) :
    List.Sublist (ordinaryTokens args) args := by
  generalize h : args.length = n
  induction n using Nat.strong_induction_on generalizing args with
  | _ n ih =>
    cases args with
    | nil => simp [ordinaryTokens_nil]
    | cons arg rest =>
      subst h
      rw [ordinaryTokens_cons]
      split
      · exact (ih rest.length (by simp) rest rfl).cons₂ arg
      · split
        · exact (ih rest.length (by simp) rest rfl).cons arg
        · cases rest with
          | nil => simp
          | cons next rest2 =>
            exact ((ih rest2.length (by simp; omega) rest2 rfl).cons next).cons arg

/-- No ordinary token is matched by the flag matcher. -/
theorem ordinaryTokens_unmatched (args : List String) :
    ∀ t ∈ ordinaryTokens args, valuesArgRegexp t = none := by
  generalize h : args.length = n
  induction n using Nat.strong_induction_on generalizing args with
  | _ n ih =>
    cases args with
    | nil => simp [ordinaryTokens_nil]
    | cons arg rest =>
      subst h
      rw [ordinaryTokens_cons]
      split
      · rename_i hm
        intro t ht
        rcases List.mem_cons.1 ht with rfl | ht
        · exact hm
        · exact ih rest.length (by simp) rest rfl t ht
      · split
        · exact ih rest.length (by simp) rest rfl
        · cases rest with
          | nil => simp
          | cons next rest2 => exact ih rest2.length (by simp; omega) rest2 rfl

/-- An unmatched prefix is copied and changes nothing else. -/
theorem emitted_unmatched_append (dest : String) (pre l : List String)
    (hpre : ∀ t ∈ pre, valuesArgRegexp t = none) :
    emitted dest (pre ++ l) = pre ++ emitted dest l := by
  induction pre with
  | nil => rfl
  | cons a pre ih =>
    have ha : valuesArgRegexp a = none := hpre a (by simp)
    have ih' := ih (fun t ht => hpre t (by simp [ht]))
    simp only [List.cons_append, emitted, ha]
    exact congrArg (List.cons a) ih'

theorem recorded_unmatched_append (pre l : List String)
    (hpre : ∀ t ∈ pre, valuesArgRegexp t = none) :
    recorded (pre ++ l) = recorded l := by
  induction pre with
  | nil => rfl
  | cons a pre ih =>
    have ha : valuesArgRegexp a = none := hpre a (by simp)
    rw [List.cons_append, recorded_cons, ha]
    exact ih (fun t ht => hpre t (by simp [ht]))

theorem ordinaryTokens_unmatched_append (pre l : List String)
    (hpre : ∀ t ∈ pre, valuesArgRegexp t = none) :
    ordinaryTokens (pre ++ l) = pre ++ ordinaryTokens l := by
  induction pre with
  | nil => rfl
  | cons a pre ih =>
    have ha : valuesArgRegexp a = none := hpre a (by simp)
    rw [List.cons_append, ordinaryTokens_cons, ha]
    simp [ih (fun t ht => hpre t (by simp [ht]))]

/-- The shape of the rewritten list: with no recorded reference it is the
ordinary tokens; otherwise the arguments split at the first recorded reference,
which is rewritten in its own form, and the ordinary tokens surround it. -/
theorem emitted_shape (dest : String) (args : List String) :
    (recorded args = [] ∧ emitted dest args = ordinaryTokens args) ∨
    (recorded args ≠ [] ∧
      ∃ pre tok rest flag v,
        args = pre ++ tok :: rest ∧ (∀ t ∈ pre, valuesArgRegexp t = none) ∧
        valuesArgRegexp tok = some (flag, v) ∧
        ((v ≠ "" ∧ emitted dest args = pre ++ (flag ++ "=" ++ dest) :: ordinaryTokens rest ∧
            ordinaryTokens args = pre ++ ordinaryTokens rest) ∨
         (v = "" ∧ ∃ val rest2, rest = val :: rest2 ∧
            emitted dest args = pre ++ tok :: dest :: ordinaryTokens rest2 ∧
            ordinaryTokens args = pre ++ ordinaryTokens rest2))) := by
  induction args with
  | nil => left; simp [recorded_nil, ordinaryTokens_nil, emitted]
  | cons arg rest ih =>
    cases hm : valuesArgRegexp arg with
    | none =>
      rcases ih with ⟨h1, h2⟩ | ⟨h1, pre, tok, rest', flag, v, h2, h3, h4, h5⟩
      · left
        rw [recorded_cons, ordinaryTokens_cons, hm]
        simp [emitted, hm, h1, h2]
      · right
        refine ⟨by rw [recorded_cons, hm]; exact h1, arg :: pre, tok, rest', flag, v,
          by simp [h2], ?_, h4, ?_⟩
        · intro t ht
          rcases List.mem_cons.1 ht with rfl | ht
          · exact hm
          · exact h3 t ht
        · rw [ordinaryTokens_cons, hm]
          rcases h5 with ⟨h5, h6, h7⟩ | ⟨h5, val, rest2, h6, h7, h8⟩
          · left
            exact ⟨h5, by simp [emitted, hm, h6], by simp [h7]⟩
          · right
            exact ⟨h5, val, rest2, h6, by simp [emitted, hm, h7], by simp [h8]⟩
    | some p =>
      obtain ⟨flag, v⟩ := p
      by_cases hv : v.length > 0
      · right
        refine ⟨by rw [recorded_cons, hm]; simp [hv], [], arg, rest, flag, v, rfl,
          by simp, hm, Or.inl ⟨(length_pos_iff_ne_empty v).1 hv, ?_, ?_⟩⟩
        · simp [emitted, hm, hv]
        · rw [ordinaryTokens_cons, hm]
          simp [hv]
      · cases rest with
        | nil =>
          left
          rw [recorded_cons, ordinaryTokens_cons, hm]
          simp [emitted, hm, hv]
        | cons val rest2 =>
          right
          have hv' : v = "" := by
            by_contra hne
            exact hv ((length_pos_iff_ne_empty v).2 hne)
          refine ⟨by rw [recorded_cons, hm]; simp [hv], [], arg, val :: rest2, flag, v, rfl,
            by simp, hm, Or.inr ⟨hv', val, rest2, rfl, ?_, ?_⟩⟩
          · simp [emitted, hm, hv]
          · rw [ordinaryTokens_cons, hm]
            simp [hv]

/-! ## Lemmas on `runHelm` -/

theorem runHelmBody_no_sources (w : World) (helmPath tmp : String)
    (h : (rewriteArgs tmp w.args).sourceValueFiles = []) :
    runHelmBody w helmPath tmp = invokeHelm w helmPath (rewriteArgs tmp w.args).helmArgs := by
  simp [runHelmBody, h, mergeLoop, evalWriteRun]

theorem invokeHelm_trace (w : World) (helmPath : String) (helmArgs : List String) :
    (invokeHelm w helmPath helmArgs).2 = [Event.run helmPath helmArgs] := by
  unfold invokeHelm
  split <;> rfl

/-- The run of `runHelm` stops at one of the two lookups, with an error and no
further call, or its trace is the two lookups, the trace of the body and the
cleanup, and its errors start with those of the body. -/
theorem runHelm_trace (w : World) :
    ((∀ e ∈ (runHelm w).2, e.touchesValues = false ∧ e.isDownstream = false) ∧
      (runHelm w).1 ≠ [] ∧ (runHelm w).2.filterMap Event.readName? = []) ∨
    ∃ helmPath tmp,
      w.lookPath (if helmCmdRegex w.executableName then "_" ++ w.executableName else "helm")
        = Except.ok helmPath ∧
      w.tempDir (w.executableName ++ ".") = Except.ok tmp ∧
      (runHelm w).2 =
        [Event.lookPath (if helmCmdRegex w.executableName then "_" ++ w.executableName
            else "helm"),
          Event.tempDir (w.executableName ++ ".")]
          ++ (runHelmBody w helmPath tmp).2 ++ [Event.removeAll tmp] ∧
      (runHelmBody w helmPath tmp).1 <+: (runHelm w).1 := by
  unfold runHelm
  simp only
  cases h1 : w.lookPath (if helmCmdRegex w.executableName then "_" ++ w.executableName
      else "helm") with
  | error err =>
    left
    simp [Event.touchesValues, Event.isDownstream, Event.readName?]
  | ok helmPath =>
    simp only
    cases h2 : w.tempDir (w.executableName ++ ".") with
    | error err =>
      left
      simp [Event.touchesValues, Event.isDownstream, Event.readName?]
    | ok tmp =>
      right
      refine ⟨helmPath, tmp, rfl, rfl, ?_⟩
      simp only
      split <;> simp

/-! ## The claims on the argument rewriter -/

/-- C1: when no token is `-f` or `--values` and none is `-f=V` or `--values=V`
with `V` non-empty, the rewriter returns the arguments token for token and an
empty source list, the merge loop makes no call, the guarded block is skipped
(the body of `runHelm` is the invocation of Helm with the unchanged arguments
and nothing else), and no event of `runHelm` touches value files. -/
theorem no_value_flag_rewrite_is_identity (w : World)
    (h : ∀ t ∈ w.args, t ≠ "-f" ∧ t ≠ "--values" ∧
      ∀ v : String, v ≠ "" → t ≠ "-f=" ++ v ∧ t ≠ "--values=" ++ v) :
    (∀ tmp, (rewriteArgs tmp w.args).helmArgs = w.args ∧
      (rewriteArgs tmp w.args).sourceValueFiles = [] ∧
      mergeLoop w (rewriteArgs tmp w.args).sourceValueFiles [] = (Except.ok [], []) ∧
      ∀ helmPath, runHelmBody w helmPath tmp = invokeHelm w helmPath w.args) ∧
    (∀ e ∈ (runHelm w).2, e.touchesValues = false) ∧
    (∀ helmPath helmArgs, Event.run helmPath helmArgs ∈ (runHelm w).2 → helmArgs = w.args) := by
  have hnone : ∀ t ∈ w.args, valuesArgRegexp t = none := fun t ht =>
    valuesArgRegexp_none_of_form (h t ht).1 (h t ht).2.1
      (fun v hv => ((h t ht).2.2 v hv).1) (fun v hv => ((h t ht).2.2 v hv).2)
  have hrec : recorded w.args = [] := by
    have := recorded_unmatched_append w.args [] hnone
    simpa [recorded_nil] using this
  have hem : ∀ dest, emitted dest w.args = w.args := by
    intro dest
    have := emitted_unmatched_append dest w.args [] hnone
    simpa [emitted] using this
  have hrw : ∀ tmp, (rewriteArgs tmp w.args).helmArgs = w.args ∧
      (rewriteArgs tmp w.args).sourceValueFiles = [] := by
    intro tmp
    rw [rewriteArgs_eq]
    exact ⟨hem _, hrec⟩
  have hbody : ∀ tmp helmPath, runHelmBody w helmPath tmp = invokeHelm w helmPath w.args := by
    intro tmp helmPath
    rw [runHelmBody_no_sources w helmPath tmp (hrw tmp).2, (hrw tmp).1]
  refine ⟨fun tmp => ⟨(hrw tmp).1, (hrw tmp).2, ?_, hbody tmp⟩, ?_, ?_⟩
  · rw [(hrw tmp).2]
    rfl
  · rcases runHelm_trace w with ⟨hall, _, _⟩ | ⟨helmPath, tmp, _, _, ht, _⟩
    · exact fun e he => (hall e he).1
    · intro e he
      rw [ht, hbody, invokeHelm_trace] at he
      simp at he
      rcases he with rfl | rfl | rfl | rfl <;> rfl
  · rcases runHelm_trace w with ⟨hall, _, _⟩ | ⟨helmPath, tmp, _, _, ht, _⟩
    · intro hp ha he
      have := (hall _ he).2
      simp [Event.isDownstream] at this
    · intro hp ha he
      rw [ht, hbody, invokeHelm_trace] at he
      simp at he
      exact he.2

/-- C1, at the arguments `install release ./chart --set x=1`. -/
theorem no_value_flag_rewrite_is_identity_witness :
    (rewriteArgs "/tmp/helm.1" ["install", "release", "./chart", "--set", "x=1"]).helmArgs
        = ["install", "release", "./chart", "--set", "x=1"] ∧
      (rewriteArgs "/tmp/helm.1"
        ["install", "release", "./chart", "--set", "x=1"]).sourceValueFiles = [] := by
  have h := no_value_flag_rewrite_is_identity
    (sampleWorld ["install", "release", "./chart", "--set", "x=1"] [] []) (by
      intro t ht
      simp only [sampleWorld, List.mem_cons, List.mem_singleton, List.not_mem_nil,
        or_false] at ht
      refine ⟨?_, ?_, fun v _ => ⟨?_, ?_⟩⟩ <;>
        rcases ht with rfl | rfl | rfl | rfl | rfl <;> intro hc <;>
        · have hd := congrArg String.data hc
          simp [String.data_append] at hd)
  exact ⟨(h.1 "/tmp/helm.1").1, (h.1 "/tmp/helm.1").2.1⟩

/-- A value-file flag that is inline, or bare with a token after it, makes the
source list non-empty wherever it stands. -/
theorem recorded_ne_nil_of_flag (pre : List String) (tok : String) (rest : List String)
    (flag v : String) (htok : valuesArgRegexp tok = some (flag, v))
    (hform : v ≠ "" ∨ rest ≠ []) :
    recorded (pre ++ tok :: rest) ≠ [] := by
  induction pre with
  | nil =>
    rw [List.nil_append, recorded_cons, htok]
    by_cases hv : v.length > 0
    · simp [hv]
    · have hv' : v = "" := by
        by_contra hne
        exact hv ((length_pos_iff_ne_empty v).2 hne)
      cases rest with
      | nil => rcases hform with h | h <;> simp_all
      | cons val rest2 => simp [hv]
  | cons a pre ih =>
    rw [List.cons_append, recorded_cons]
    split
    · exact ih
    · split
      · simp
      · cases hp : pre ++ tok :: rest with
        | nil => simp at hp
        | cons b l => simp

/-- C2, refuted as stated: `install -f` contains the value-file flag `-f`, and
the rewritten list `install` contains no value-file flag at all. -/
theorem exactly_one_flag_counterexample :
    (valuesArgRegexp "-f").isSome = true ∧
      (rewriteArgs "/tmp/helm.1" ["install", "-f"]).helmArgs = ["install"] ∧
      ((rewriteArgs "/tmp/helm.1" ["install", "-f"]).helmArgs.filter
        (fun t => (valuesArgRegexp t).isSome)).length = 0 := by
  decide

/-- C2, amended: when the arguments hold a value-file flag that is inline, or
bare with a token after it, the rewritten list is `pre ++ occurrence ++ post`
where no token of `pre` and `post` is a value-file flag and the occurrence is
`flag=destValueFile` or the two tokens `flag`, `destValueFile`, with `flag` one
of `-f` and `--values`; and when the temporary directory has no line feed in
its name and `destValueFile` is not itself spelled as a flag, exactly one token
of the rewritten list is matched by the flag matcher. -/
theorem exactly_one_flag_occurrence (tmp : String) (before : List String) (tok : String)
    (after : List String) (flag0 v0 : String)
    (htok : valuesArgRegexp tok = some (flag0, v0))
    (hform : v0 ≠ "" ∨ after ≠ []) :
    (∃ pre post flag,
      (flag = "-f" ∨ flag = "--values") ∧
      ((rewriteArgs tmp (before ++ tok :: after)).helmArgs
          = pre ++ [flag ++ "=" ++ destValueFile tmp] ++ post ∨
        (rewriteArgs tmp (before ++ tok :: after)).helmArgs
          = pre ++ [flag, destValueFile tmp] ++ post) ∧
      ∀ t ∈ pre ++ post, valuesArgRegexp t = none) ∧
    ((∀ c ∈ tmp.data, c ≠ '\n') → valuesArgRegexp (destValueFile tmp) = none →
      ((rewriteArgs tmp (before ++ tok :: after)).helmArgs.filter
        (fun t => (valuesArgRegexp t).isSome)).length = 1) := by
  have hne := recorded_ne_nil_of_flag before tok after flag0 v0 htok hform
  have hex : ∃ pre post flag,
      (flag = "-f" ∨ flag = "--values") ∧
      ((rewriteArgs tmp (before ++ tok :: after)).helmArgs
          = pre ++ [flag ++ "=" ++ destValueFile tmp] ++ post ∨
        (rewriteArgs tmp (before ++ tok :: after)).helmArgs
          = pre ++ [flag, destValueFile tmp] ++ post) ∧
      ∀ t ∈ pre ++ post, valuesArgRegexp t = none := by
    rw [rewriteArgs_eq]
    rcases emitted_shape (destValueFile tmp) (before ++ tok :: after) with
      ⟨h1, _⟩ | ⟨_, pre, t1, rest, flag, v, _, hpre, hm, hcase⟩
    · exact absurd h1 hne
    · obtain ⟨hflag, hv⟩ := valuesArgRegexp_some hm
      rcases hcase with ⟨_, hem, _⟩ | ⟨hv0, val, rest2, _, hem, _⟩
      · refine ⟨pre, ordinaryTokens rest, flag, hflag, Or.inl (by simp [hem]), ?_⟩
        intro t ht
        rcases List.mem_append.1 ht with ht | ht
        · exact hpre t ht
        · exact ordinaryTokens_unmatched rest t ht
      · have ht1 : t1 = flag := by
          rcases hv with ⟨_, h⟩ | ⟨h, _⟩
          · exact h
          · exact absurd hv0 h
        refine ⟨pre, ordinaryTokens rest2, flag, hflag, Or.inr (by simp [hem, ht1]), ?_⟩
        intro t ht
        rcases List.mem_append.1 ht with ht | ht
        · exact hpre t ht
        · exact ordinaryTokens_unmatched rest2 t ht
  refine ⟨hex, ?_⟩
  intro htmp hdest
  obtain ⟨pre, post, flag, hflag, hshape, hun⟩ := hex
  have hfil : ∀ l : List String, (∀ t ∈ l, valuesArgRegexp t = none) →
      l.filter (fun t => (valuesArgRegexp t).isSome) = [] := by
    intro l hl
    rw [List.filter_eq_nil_iff]
    intro t ht
    simp [hl t ht]
  have hpre := hfil pre (fun t ht => hun t (List.mem_append.2 (Or.inl ht)))
  have hpost := hfil post (fun t ht => hun t (List.mem_append.2 (Or.inr ht)))
  have hbare : (valuesArgRegexp flag).isSome = true := by
    rcases hflag with rfl | rfl <;> decide
  rcases hshape with h | h
  · rw [h]
    simp [List.filter_append, hpre, hpost, List.filter_cons,
      valuesArgRegexp_inline flag _ hflag (dotPlus_destValueFile tmp htmp)]
  · rw [h]
    simp [List.filter_append, hpre, hpost, List.filter_cons, hbare, hdest]

/-- C2 amended, at `upgrade --values=a.yaml -f b.yaml --values c.yaml`: one
token of the rewritten list is a value-file flag. -/
theorem exactly_one_flag_occurrence_witness :
    ((rewriteArgs "/tmp/helm.1"
        (["upgrade", "--values=a.yaml"] ++ "-f" :: ["b.yaml", "--values", "c.yaml"])).helmArgs.filter
      (fun t => (valuesArgRegexp t).isSome)).length = 1 :=
  (exactly_one_flag_occurrence "/tmp/helm.1" ["upgrade", "--values=a.yaml"] "-f"
    ["b.yaml", "--values", "c.yaml"] "-f" "" (by decide) (Or.inr (by simp))).2
    (by decide) (by decide)

/-- C3: with no value-file flag before it, an inline flag `flag=v` is replaced
in place by `flag=destValueFile` with the same `flag`, and a bare flag followed
by a value keeps its own token, followed by `destValueFile` in place of the
value; what follows in the output is the ordinary tokens of the rest, so later
references and their values leave no token. -/
theorem first_reference_keeps_form (tmp : String) (pre : List String) (tok : String)
    (rest : List String) (flag v : String)
    (hpre : ∀ t ∈ pre, valuesArgRegexp t = none)
    (htok : valuesArgRegexp tok = some (flag, v)) :
    (flag = "-f" ∨ flag = "--values") ∧
    (v ≠ "" →
      tok = flag ++ "=" ++ v ∧
      (rewriteArgs tmp (pre ++ tok :: rest)).helmArgs
        = pre ++ (flag ++ "=" ++ destValueFile tmp) :: ordinaryTokens rest) ∧
    (v = "" →
      tok = flag ∧
      ∀ val rest2, rest = val :: rest2 →
        (rewriteArgs tmp (pre ++ tok :: rest)).helmArgs
          = pre ++ tok :: destValueFile tmp :: ordinaryTokens rest2) ∧
    (∀ mid tok2 rest3 flag2 v2, (∀ t ∈ mid, valuesArgRegexp t = none) →
      valuesArgRegexp tok2 = some (flag2, v2) →
      (v2 ≠ "" → ordinaryTokens (mid ++ tok2 :: rest3) = mid ++ ordinaryTokens rest3) ∧
      (v2 = "" → ∀ val2, ordinaryTokens (mid ++ tok2 :: val2 :: rest3)
        = mid ++ ordinaryTokens rest3)) := by
  obtain ⟨hflag, hv⟩ := valuesArgRegexp_some htok
  refine ⟨hflag, ?_, ?_, ?_⟩
  · intro hne
    have hlen : v.length > 0 := (length_pos_iff_ne_empty v).2 hne
    refine ⟨?_, ?_⟩
    · rcases hv with ⟨h, _⟩ | ⟨_, h⟩
      · exact absurd h hne
      · exact h
    · rw [rewriteArgs_eq]
      simp only
      rw [emitted_unmatched_append _ _ _ hpre]
      simp [emitted, htok, hlen]
  · intro he
    have hlen : ¬ v.length > 0 := fun h => (length_pos_iff_ne_empty v).1 h he
    refine ⟨?_, ?_⟩
    · rcases hv with ⟨_, h⟩ | ⟨h, _⟩
      · exact h
      · exact absurd he h
    · intro val rest2 hrest
      subst hrest
      rw [rewriteArgs_eq]
      simp only
      rw [emitted_unmatched_append _ _ _ hpre]
      simp [emitted, htok, hlen]
  · intro mid tok2 rest3 flag2 v2 hmid htok2
    refine ⟨?_, ?_⟩
    · intro hne
      have hlen : v2.length > 0 := (length_pos_iff_ne_empty v2).2 hne
      rw [ordinaryTokens_unmatched_append _ _ hmid, ordinaryTokens_cons, htok2]
      simp [hlen]
    · intro he val2
      have hlen : ¬ v2.length > 0 := fun h => (length_pos_iff_ne_empty v2).1 h he
      rw [ordinaryTokens_unmatched_append _ _ hmid, ordinaryTokens_cons, htok2]
      simp [hlen]

/-- C3, at the scenario of the specification: `-f base.yaml` comes first and
keeps its form, `--values=override.yaml` leaves no token. -/
theorem first_reference_keeps_form_witness :
    (rewriteArgs "/tmp/helm.1"
        ["template", "-f", "base.yaml", "--values=override.yaml", "--set", "x=1"]).helmArgs
      = ["template", "-f", "/tmp/helm.1/values.yaml", "--set", "x=1"] := by
  have h := first_reference_keeps_form "/tmp/helm.1" ["template"] "-f"
    ["base.yaml", "--values=override.yaml", "--set", "x=1"] "-f" "" (by decide) (by decide)
  have h2 := (h.2.2.1 rfl).2 "base.yaml" ["--values=override.yaml", "--set", "x=1"] rfl
  have h3 : ordinaryTokens ["--values=override.yaml", "--set", "x=1"] = ["--set", "x=1"] := by
    decide
  rw [h3] at h2
  exact h2

theorem labelFits_cons (x : String × Role) (before : List (String × Role))
    (p : String × Role) (after : List (String × Role)) (h : labelFits before p after) :
    labelFits (x :: before) p after := by
  unfold labelFits at h ⊢
  split
  · rename_i hr
    simpa [hr] using h
  · rename_i flag value hr
    simpa [hr] using h
  · rename_i value hr
    simpa [hr] using h
  · rename_i hr
    simpa [hr] using h
  · rename_i hr
    simp only [hr] at h
    obtain ⟨front, q, h1, h2⟩ := h
    exact ⟨x :: front, q, by simp [h1], h2⟩

/-- Every label of `annotate` says the truth about its token. -/
theorem annotate_labels (args : List String) :
    ∀ before p after, annotate args = before ++ p :: after → labelFits before p after := by
  generalize h : args.length = n
  induction n using Nat.strong_induction_on generalizing args with
  | _ n ih =>
    cases args with
    | nil =>
      intro before p after hd
      simp [annotate] at hd
    | cons arg rest =>
      subst h
      intro before p after hd
      rw [annotate_cons] at hd
      cases hm : valuesArgRegexp arg with
      | none =>
        simp only [hm] at hd
        cases before with
        | nil =>
          simp only [List.nil_append, List.cons.injEq] at hd
          obtain ⟨rfl, _⟩ := hd
          simpa [labelFits] using hm
        | cons x before =>
          simp only [List.cons_append, List.cons.injEq] at hd
          exact labelFits_cons x _ _ _ (ih rest.length (by simp) rest rfl before p after hd.2)
      | some fv =>
        obtain ⟨flag, v⟩ := fv
        simp only [hm] at hd
        by_cases hv : v.length > 0
        · simp only [hv, if_true] at hd
          cases before with
          | nil =>
            simp only [List.nil_append, List.cons.injEq] at hd
            obtain ⟨rfl, _⟩ := hd
            simpa [labelFits] using ⟨hm, (length_pos_iff_ne_empty v).1 hv⟩
          | cons x before =>
            simp only [List.cons_append, List.cons.injEq] at hd
            exact labelFits_cons x _ _ _ (ih rest.length (by simp) rest rfl before p after hd.2)
        · have hv0 : v = "" := by
            by_contra hne
            exact hv ((length_pos_iff_ne_empty v).2 hne)
          subst hv0
          simp only [hv, if_false] at hd
          cases rest with
          | nil =>
            simp only at hd
            cases before with
            | nil =>
              simp only [List.nil_append, List.cons.injEq] at hd
              obtain ⟨rfl, hafter⟩ := hd
              exact ⟨⟨flag, hm⟩, hafter.symm⟩
            | cons x before =>
              simp only [List.cons_append, List.cons.injEq] at hd
              have := hd.2
              simp at this
          | cons next rest2 =>
            simp only at hd
            cases before with
            | nil =>
              simp only [List.nil_append, List.cons.injEq] at hd
              obtain ⟨rfl, hafter⟩ := hd
              exact ⟨⟨flag, hm⟩, _, hafter.symm⟩
            | cons x before =>
              simp only [List.cons_append, List.cons.injEq] at hd
              obtain ⟨hx, hd⟩ := hd
              cases before with
              | nil =>
                simp only [List.nil_append, List.cons.injEq] at hd
                obtain ⟨rfl, _⟩ := hd
                exact ⟨[], x, rfl, by rw [← hx]⟩
              | cons y before =>
                simp only [List.cons_append, List.cons.injEq] at hd
                exact labelFits_cons x _ _ _ (labelFits_cons y _ _ _
                  (ih rest2.length (by simp; omega) rest2 rfl before p after hd.2))

/-- C4: the labels of `annotate` are those of the arguments, in place, and
each says the truth about its token (scanned and unmatched, scanned inline
flag, scanned bare flag with the next token as its consumed value, bare flag in
last position, or consumed value); the source list is, in order, the inline
value of every scanned inline flag and the following token of every scanned
bare flag that has one.  In `-f --values=x y` the token `--values=x` is the
value of `-f`: it is recorded as it is and not matched. -/
theorem sources_are_recorded_values (tmp : String) (args : List String) :
    (annotate args).map Prod.fst = args ∧
    (∀ before p after, annotate args = before ++ p :: after → labelFits before p after) ∧
    (rewriteArgs tmp args).sourceValueFiles
      = (annotate args).filterMap (fun p => p.2.value?) ∧
    annotate ["-f", "--values=x", "y"]
      = [("-f", Role.bareFlag "--values=x"), ("--values=x", Role.consumedValue),
          ("y", Role.ordinary)] ∧
    (rewriteArgs tmp ["-f", "--values=x", "y"]).sourceValueFiles = ["--values=x"] := by
  refine ⟨annotate_map_fst args, annotate_labels args, ?_, by decide, ?_⟩
  · rw [rewriteArgs_eq]
    rfl
  · rw [rewriteArgs_eq]
    show recorded ["-f", "--values=x", "y"] = ["--values=x"]
    decide

/-- With no source recorded, the rewritten list is the ordinary tokens. -/
theorem helmArgs_of_no_sources (tmp : String) (args : List String)
    (h : (rewriteArgs tmp args).sourceValueFiles = []) :
    (rewriteArgs tmp args).helmArgs = ordinaryTokens args := by
  rw [rewriteArgs_eq] at h ⊢
  rcases emitted_shape (destValueFile tmp) args with ⟨_, h2⟩ | ⟨h1, _⟩
  · exact h2
  · exact absurd h h1

/-- C5: the ordinary tokens are a subsequence of the arguments; with no source
recorded the rewritten list is exactly that subsequence, and otherwise it is
that subsequence with the one rewritten occurrence (`flag=destValueFile`, or
`flag` and `destValueFile`) inserted at one place. -/
theorem unrelated_tokens_pass_through (tmp : String) (args : List String) :
    List.Sublist (ordinaryTokens args) args ∧
    ((rewriteArgs tmp args).sourceValueFiles = [] →
      (rewriteArgs tmp args).helmArgs = ordinaryTokens args) ∧
    ((rewriteArgs tmp args).sourceValueFiles ≠ [] →
      ∃ pre post flag,
        pre ++ post = ordinaryTokens args ∧ (flag = "-f" ∨ flag = "--values") ∧
        ((rewriteArgs tmp args).helmArgs = pre ++ [flag ++ "=" ++ destValueFile tmp] ++ post ∨
          (rewriteArgs tmp args).helmArgs = pre ++ [flag, destValueFile tmp] ++ post)) := by
  refine ⟨ordinaryTokens_sublist args, ?_, ?_⟩
  · exact helmArgs_of_no_sources tmp args
  · intro h
    rw [rewriteArgs_eq] at h ⊢
    rcases emitted_shape (destValueFile tmp) args with
      ⟨h1, _⟩ | ⟨_, pre, tok, rest, flag, v, _, _, hm, hcase⟩
    · exact absurd h1 h
    · rcases hcase with ⟨_, hem, hord⟩ | ⟨hv0, val, rest2, _, hem, hord⟩
      · exact ⟨pre, ordinaryTokens rest, flag, hord.symm, (valuesArgRegexp_some hm).1,
          Or.inl (by simp [hem])⟩
      · have ht1 : tok = flag := by
          rcases (valuesArgRegexp_some hm).2 with ⟨_, h⟩ | ⟨h, _⟩
          · exact h
          · exact absurd hv0 h
        exact ⟨pre, ordinaryTokens rest2, flag, hord.symm, (valuesArgRegexp_some hm).1,
          Or.inr (by simp [hem, ht1])⟩


/-- A bare flag added at the end is consumed as a value or is labelled
`trailingBare`, the labels before it unchanged. -/
theorem annotate_append_bare (args : List String) (last flag : String)
    (hlast : valuesArgRegexp last = some (flag, "")) :
    annotate (args ++ [last]) = annotate args ++ [(last, Role.trailingBare)] ∨
    ∃ front, annotate (args ++ [last]) = front ++ [(last, Role.consumedValue)] := by
  generalize h : args.length = n
  induction n using Nat.strong_induction_on generalizing args with
  | _ n ih =>
    cases args with
    | nil =>
      left
      simp [annotate_cons, hlast, annotate]
    | cons arg rest =>
      subst h
      rw [List.cons_append, annotate_cons, annotate_cons arg rest]
      split
      · rcases ih rest.length (by simp) rest rfl with h1 | ⟨front, h1⟩
        · left; simp [h1]
        · right; exact ⟨(arg, Role.ordinary) :: front, by simp [h1]⟩
      · rename_i f v _
        split
        · rcases ih rest.length (by simp) rest rfl with h1 | ⟨front, h1⟩
          · left; simp [h1]
          · right; exact ⟨(arg, Role.inlineFlag f v) :: front, by simp [h1]⟩
        · cases rest with
          | nil =>
            right
            exact ⟨[(arg, Role.bareFlag last)], by simp [annotate]⟩
          | cons next rest2 =>
            rcases ih rest2.length (by simp; omega) rest2 rfl with h1 | ⟨front, h1⟩
            · left; simp [h1]
            · right
              exact ⟨(arg, Role.bareFlag next) :: (next, Role.consumedValue) :: front,
                by simp [h1]⟩

theorem emitted_append_trailing (dest : String) (args : List String) (last flag : String)
    (hlast : valuesArgRegexp last = some (flag, ""))
    (hP : annotate (args ++ [last]) = annotate args ++ [(last, Role.trailingBare)]) :
    emitted dest (args ++ [last]) = emitted dest args := by
  induction args with
  | nil => simp [emitted, hlast]
  | cons arg rest ih =>
    rw [List.cons_append, annotate_cons, annotate_cons arg rest] at hP
    simp only [List.cons_append, emitted]
    cases hm : valuesArgRegexp arg with
    | none =>
      simp only [hm, List.cons_append, List.cons.injEq, true_and] at hP
      simp only
      exact congrArg (List.cons arg) (ih hP)
    | some p =>
      obtain ⟨f, v⟩ := p
      simp only [hm] at hP
      simp only
      by_cases hv : v.length > 0
      · simp only [hv, if_true, List.cons_append, List.cons.injEq, true_and] at hP
        simp only [hv, if_true]
        simp [ordinaryTokens, hP]
      · simp only [hv, if_false] at hP
        simp only [hv, if_false]
        cases rest with
        | nil => simp at hP
        | cons next rest2 =>
          simp only [List.cons_append, List.cons.injEq, true_and] at hP
          simp [ordinaryTokens, hP]

/-- The arguments reach the merge loop only through the source list. -/
theorem mergeLoop_args (w : World) (a : List String) (files : List String) (acc : Document) :
    mergeLoop { w with args := a } files acc = mergeLoop w files acc := by
  induction files generalizing acc with
  | nil => rfl
  | cons f files ih =>
    rw [mergeLoop, mergeLoop]
    simp only [ih]

/-- The arguments reach the body of `runHelm` only through the rewriter. -/
theorem runHelmBody_congr (w : World) (helmPath tmp : String) (a b : List String)
    (h : rewriteArgs tmp a = rewriteArgs tmp b) :
    runHelmBody { w with args := a } helmPath tmp
      = runHelmBody { w with args := b } helmPath tmp := by
  unfold runHelmBody
  simp only [h, mergeLoop_args]
  rfl

/-- C6: a bare `-f` or `--values` in last position that is not the value of
the flag before it is labelled `trailingBare`, the rewriter returns for the
whole list exactly what it returns for the list without that token, and so
does the body of `runHelm`, errors included. -/
theorem trailing_bare_flag_is_dropped (tmp : String) (args : List String) (last : String)
    (hlast : last = "-f" ∨ last = "--values")
    (hscan : (annotate (args ++ [last])).getLast? ≠ some (last, Role.consumedValue)) :
    (annotate (args ++ [last])).getLast? = some (last, Role.trailingBare) ∧
    rewriteArgs tmp (args ++ [last]) = rewriteArgs tmp args ∧
    ∀ (w : World) (helmPath : String),
      runHelmBody { w with args := args ++ [last] } helmPath tmp
        = runHelmBody { w with args := args } helmPath tmp := by
  have hm : valuesArgRegexp last = some (last, "") := by
    rcases hlast with rfl | rfl <;> decide
  rcases annotate_append_bare args last last hm with hP | ⟨front, hc⟩
  · have heq : rewriteArgs tmp (args ++ [last]) = rewriteArgs tmp args := by
      rw [rewriteArgs_eq, rewriteArgs_eq, emitted_append_trailing _ _ _ _ hm hP]
      have hrec : recorded (args ++ [last]) = recorded args := by
        simp [recorded, hP, Role.value?]
      rw [hrec]
    exact ⟨by simp [hP], heq, fun w helmPath => runHelmBody_congr w helmPath tmp _ _ heq⟩
  · exact absurd (by simp [hc]) hscan

/-- C6, at `install -f`: the result is the one for `install`, with no source,
and `runHelm` returns no error. -/
theorem trailing_bare_flag_is_dropped_witness :
    rewriteArgs "/tmp/helm.1" (["install"] ++ ["-f"])
      = { sourceValueFiles := [], helmArgs := ["install"], firstValueReplaced := false } ∧
    runHelm (sampleWorld (["install"] ++ ["-f"]) [] [])
      = ([], [Event.lookPath "_helm", Event.tempDir "helm.",
          Event.run "/usr/bin/_helm" ["install"], Event.removeAll "/tmp/helm.1"]) := by
  have h := trailing_bare_flag_is_dropped "/tmp/helm.1" ["install"] "-f" (Or.inl rfl)
    (by decide)
  refine ⟨?_, by decide⟩
  rw [h.2.1]
  decide

/-! ## The pipeline after the rewriter -/

/-- The merge loop evaluates nothing, writes nothing and does not run Helm. -/
theorem mergeLoop_not_downstream (w : World) (files : List String) (acc : Document) :
    ∀ e ∈ (mergeLoop w files acc).2, e.isDownstream = false := by
  induction files generalizing acc with
  | nil => simp [mergeLoop]
  | cons f files ih =>
    unfold mergeLoop
    cases h1 : w.readFile f with
    | error err => simp [Event.isDownstream]
    | ok data =>
      dsimp only
      cases h2 : w.unmarshal data with
      | error err => simp [Event.isDownstream]
      | ok parsed =>
        dsimp only
        cases h3 : w.merge acc (parsed.getD []) with
        | error err => simp [Event.isDownstream]
        | ok merged =>
          dsimp only
          intro e he
          simp only [List.mem_append, List.mem_cons, List.mem_singleton, List.not_mem_nil,
            or_false] at he
          rcases he with (rfl | rfl | rfl) | he
          · rfl
          · rfl
          · rfl
          · exact ih merged e he

/-- When the block after the merge runs Helm, it runs it with `helmArgs`, and
it has written `dest` successfully just when there are sources. -/
theorem evalWriteRun_run (w : World) (helmPath dest : String) (st : LoopState)
    (merged : Document) (hp : String) (a : List String)
    (hrun : Event.run hp a ∈ (evalWriteRun w helmPath dest st merged).2) :
    a = st.helmArgs ∧
    (st.sourceValueFiles ≠ [] →
      ∃ data, Event.writeFile dest data ∈ (evalWriteRun w helmPath dest st merged).2 ∧
        w.writeFile dest data = Except.ok ()) ∧
    (st.sourceValueFiles = [] →
      ∀ name data, Event.writeFile name data ∉ (evalWriteRun w helmPath dest st merged).2) := by
  unfold evalWriteRun at hrun ⊢
  by_cases hs : st.sourceValueFiles.length > 0
  · have hne : st.sourceValueFiles ≠ [] := by
      intro h
      simp [h] at hs
    simp only [hs, if_true] at hrun ⊢
    cases h1 : w.eval merged with
    | error err => simp [h1] at hrun
    | ok evaluated =>
      simp only [h1] at hrun ⊢
      cases h2 : w.marshal evaluated with
      | error err => simp [h2] at hrun
      | ok data =>
        simp only [h2] at hrun ⊢
        cases h3 : w.writeFile dest data with
        | error err => simp [h3] at hrun
        | ok u =>
          simp only [h3, invokeHelm_trace, List.mem_append, List.mem_cons, List.mem_singleton,
            List.not_mem_nil, or_false, reduceCtorEq, false_or, Event.run.injEq] at hrun ⊢
          exact ⟨hrun.2, fun _ => ⟨data, by simp, h3⟩, fun h => absurd h hne⟩
  · have he : st.sourceValueFiles = [] := by
      cases h : st.sourceValueFiles with
      | nil => rfl
      | cons x xs => simp [h] at hs
    simp only [hs, if_false, invokeHelm_trace, List.mem_singleton, Event.run.injEq] at hrun ⊢
    refine ⟨hrun.2, fun h => absurd he h, fun _ name data => by simp⟩

/-- C10: when no original token is the synthesized path or a value-file flag
carrying it, the rewritten list refers to that path once if the source list is
non-empty and not at all if it is empty; and whenever the body of `runHelm`
runs Helm, it hands over that rewritten list, which refers to the path exactly
when the file was written successfully before, and not at all exactly when no
file was written. -/
theorem synthesized_path_iff_sources (w : World) (helmPath tmp : String)
    (h : ∀ t ∈ w.args, t ≠ destValueFile tmp ∧ t ≠ "-f=" ++ destValueFile tmp ∧
      t ≠ "--values=" ++ destValueFile tmp) :
    ((rewriteArgs tmp w.args).sourceValueFiles = [] →
      (rewriteArgs tmp w.args).helmArgs.countP (refersTo (destValueFile tmp)) = 0) ∧
    ((rewriteArgs tmp w.args).sourceValueFiles ≠ [] →
      (rewriteArgs tmp w.args).helmArgs.countP (refersTo (destValueFile tmp)) = 1) ∧
    (∀ hp a, Event.run hp a ∈ (runHelmBody w helmPath tmp).2 →
      a = (rewriteArgs tmp w.args).helmArgs ∧
      (a.countP (refersTo (destValueFile tmp)) = 1 ↔
        ∃ data, Event.writeFile (destValueFile tmp) data ∈ (runHelmBody w helmPath tmp).2 ∧
          w.writeFile (destValueFile tmp) data = Except.ok ()) ∧
      (a.countP (refersTo (destValueFile tmp)) = 0 ↔
        ∀ name data, Event.writeFile name data ∉ (runHelmBody w helmPath tmp).2)) := by
  have hno : ∀ t ∈ w.args, refersTo (destValueFile tmp) t = false := by
    intro t ht
    obtain ⟨h1, h2, h3⟩ := h t ht
    simp [refersTo, h1, h2, h3]
  have hcount0 : ∀ l : List String, (∀ t ∈ l, t ∈ w.args) →
      l.countP (refersTo (destValueFile tmp)) = 0 := by
    intro l hl
    rw [List.countP_eq_zero]
    intro t ht
    simp [hno t (hl t ht)]
  have hdest : refersTo (destValueFile tmp) (destValueFile tmp) = true := by
    simp [refersTo]
  have hflag : ∀ flag : String, flag = "-f" ∨ flag = "--values" →
      refersTo (destValueFile tmp) (flag ++ "=" ++ destValueFile tmp) = true := by
    intro flag hf
    rcases hf with rfl | rfl
    · have : ("-f" : String) ++ "=" = "-f=" := by decide
      simp [refersTo, this]
    · have : ("--values" : String) ++ "=" = "--values=" := by decide
      simp [refersTo, this]
  have hsub : ∀ t ∈ ordinaryTokens w.args, t ∈ w.args :=
    fun t ht => (ordinaryTokens_sublist w.args).subset ht
  have hzero : (rewriteArgs tmp w.args).sourceValueFiles = [] →
      (rewriteArgs tmp w.args).helmArgs.countP (refersTo (destValueFile tmp)) = 0 := by
    intro hs
    rw [helmArgs_of_no_sources tmp w.args hs]
    exact hcount0 _ hsub
  have hone : (rewriteArgs tmp w.args).sourceValueFiles ≠ [] →
      (rewriteArgs tmp w.args).helmArgs.countP (refersTo (destValueFile tmp)) = 1 := by
    intro hs
    rw [rewriteArgs_eq] at hs ⊢
    simp only at hs ⊢
    rcases emitted_shape (destValueFile tmp) w.args with
      ⟨h1, _⟩ | ⟨_, pre, tok, rest, flag, v, hargs, _, hm, hcase⟩
    · exact absurd h1 hs
    · have hpre : ∀ t ∈ pre, t ∈ w.args := by
        intro t ht
        rw [hargs]
        simp [ht]
      have htok : tok ∈ w.args := by
        rw [hargs]
        simp
      rcases hcase with ⟨_, hem, hord⟩ | ⟨_, val, rest2, _, hem, hord⟩
      · have hr : ∀ t ∈ ordinaryTokens rest, t ∈ w.args := by
          intro t ht
          apply hsub
          rw [hord]
          simp [ht]
        rw [hem, List.countP_append, List.countP_cons, hcount0 pre hpre, hcount0 _ hr,
          hflag flag (valuesArgRegexp_some hm).1]
        simp
      · have hr : ∀ t ∈ ordinaryTokens rest2, t ∈ w.args := by
          intro t ht
          apply hsub
          rw [hord]
          simp [ht]
        rw [hem, List.countP_append, List.countP_cons, List.countP_cons, hcount0 pre hpre,
          hcount0 _ hr, hno tok htok, hdest]
        simp
  refine ⟨hzero, hone, ?_⟩
  intro hp a hrun
  unfold runHelmBody at hrun ⊢
  simp only at hrun ⊢
  split at hrun
  · rename_i err trace hml
    have := mergeLoop_not_downstream w (rewriteArgs tmp w.args).sourceValueFiles [] _
      (by rw [hml]; exact hrun)
    simp [Event.isDownstream] at this
  · rename_i merged trace hml
    have hmt : ∀ e ∈ trace, e.isDownstream = false := by
      have := mergeLoop_not_downstream w (rewriteArgs tmp w.args).sourceValueFiles []
      rw [hml] at this
      exact this
    simp only [List.mem_append] at hrun ⊢
    have hrun' : Event.run hp a ∈
        (evalWriteRun w helmPath (destValueFile tmp) (rewriteArgs tmp w.args) merged).2 := by
      rcases hrun with hrun | hrun
      · have := hmt _ hrun
        simp [Event.isDownstream] at this
      · exact hrun
    obtain ⟨ha, hw1, hw0⟩ := evalWriteRun_run w helmPath _ _ merged hp a hrun'
    have hnot : ∀ name data, Event.writeFile name data ∉ trace := by
      intro name data hmem
      have := hmt _ hmem
      simp [Event.isDownstream] at this
    refine ⟨ha, ?_, ?_⟩
    · rw [ha]
      constructor
      · intro hc
        have hs : (rewriteArgs tmp w.args).sourceValueFiles ≠ [] := by
          intro hs
          rw [hzero hs] at hc
          exact absurd hc (by decide)
        obtain ⟨data, hd1, hd2⟩ := hw1 hs
        exact ⟨data, Or.inr hd1, hd2⟩
      · rintro ⟨data, hd1, _⟩
        by_cases hs : (rewriteArgs tmp w.args).sourceValueFiles = []
        · rcases hd1 with hd1 | hd1
          · exact absurd hd1 (hnot _ _)
          · exact absurd hd1 (hw0 hs _ _)
        · exact hone hs
    · rw [ha]
      constructor
      · intro hc
        have hs : (rewriteArgs tmp w.args).sourceValueFiles = [] := by
          by_contra hs
          rw [hone hs] at hc
          exact absurd hc (by decide)
        intro name data hmem
        rcases hmem with hmem | hmem
        · exact hnot _ _ hmem
        · exact hw0 hs _ _ hmem
      · intro hall
        by_cases hs : (rewriteArgs tmp w.args).sourceValueFiles = []
        · exact hzero hs
        · obtain ⟨data, hd1, _⟩ := hw1 hs
          exact absurd (Or.inr hd1) (hall _ data)

/-- C10, at `template -f base.yaml` with the temporary directory
`/tmp/helm.1`: the rewritten list refers to `/tmp/helm.1/values.yaml` once. -/
theorem synthesized_path_iff_sources_witness :
    (rewriteArgs "/tmp/helm.1" ["template", "-f", "base.yaml"]).helmArgs.countP
        (refersTo (destValueFile "/tmp/helm.1")) = 1 :=
  (synthesized_path_iff_sources (sampleWorld ["template", "-f", "base.yaml"] [] [])
    "/usr/bin/helm" "/tmp/helm.1" (by decide)).2.1 (by decide)

/-! ## The merge -/

theorem lookup_cons_eq (j k : String) (v : Value) (d : Document) :
    List.lookup j ((k, v) :: d) = if j = k then some v else d.lookup j := by
  by_cases h : j = k
  · subst h
    simp [List.lookup]
  · have hjk : (j == k) = false := by simpa using h
    simp [List.lookup, hjk, h]

theorem lookup_setKey (k : String) (v : Value) (d : Document) (j : String) :
    (setKey k v d).lookup j = if j = k then some v else d.lookup j := by
  induction d with
  | nil => simp [setKey, lookup_cons_eq]
  | cons p d ih =>
    obtain ⟨k', v'⟩ := p
    by_cases hk : k' = k
    · subst hk
      simp only [setKey, if_true, lookup_cons_eq]
      by_cases h : j = k' <;> simp [h]
    · simp only [setKey, hk, if_false, lookup_cons_eq, ih]
      by_cases h : j = k
      · subst h
        have : ¬ j = k' := fun h' => hk h'.symm
        simp [this]
      · simp [h]

/-- The value of every key after a merge: a key of the new document gets
`mergeValue`, every other key keeps what the accumulator has. -/
theorem lookup_mergoMergeWithOverride (acc new : Document) (j : String) :
    (mergoMergeWithOverride acc new).lookup j =
      match new.lookup j with
      | some v => some (mergeValue (acc.lookup j) v)
      | none => acc.lookup j := by
  induction new with
  | nil => simp [mergoMergeWithOverride]
  | cons p new ih =>
    obtain ⟨k, v⟩ := p
    rw [mergoMergeWithOverride, lookup_setKey, lookup_cons_eq]
    by_cases h : j = k
    · subst h
      simp
    · simp [h, ih]

theorem mergeValue_none (v : Value) : mergeValue none v = v := by
  cases v <;> simp [mergeValue]

theorem mergeValue_scalar (old : Option Value) (text : String) :
    mergeValue old (Value.scalar text) = Value.scalar text := by
  simp [mergeValue]

theorem mergeValue_sequence (old : Option Value) (items : List Value) :
    mergeValue old (Value.sequence items) = Value.sequence items := by
  simp [mergeValue]

theorem lookup_merge_empty (doc : Document) (j : String) :
    (mergoMergeWithOverride [] doc).lookup j = doc.lookup j := by
  rw [lookup_mergoMergeWithOverride]
  cases doc.lookup j <;> simp [mergeValue_none]

/-- The value of every key after folding two documents into the empty
accumulator. -/
theorem lookup_mergeAll_pair (A B : Document) (j : String) :
    (mergeAll [A, B]).lookup j =
      match B.lookup j with
      | some v => some (mergeValue (A.lookup j) v)
      | none => A.lookup j := by
  simp only [mergeAll, List.foldl]
  rw [lookup_mergoMergeWithOverride, lookup_merge_empty]

/-- When every file is read and parsed and the merge is the one of the
specification, the loop of `runHelm` returns the fold of the parsed documents
into its accumulator. -/
theorem mergeLoop_eq_foldl (w : World)
    (hmerge : ∀ a b, w.merge a b = Except.ok (mergoMergeWithOverride a b))
    (files : List String) (docs : List Document)
    (hfiles : List.Forall₂ (parsesTo w) files docs)
    (acc : Document) :
    (mergeLoop w files acc).1 = Except.ok (docs.foldl mergoMergeWithOverride acc) := by
  induction hfiles generalizing acc with
  | nil => simp [mergeLoop]
  | cons hfd _ ih =>
    obtain ⟨data, parsed, h1, h2, h3⟩ := hfd
    unfold mergeLoop
    simp only [h1, h2, hmerge, h3, List.foldl]
    exact ih _

/-- C7: when `A` and `B` both hold a scalar under `k`, `a` and `b` with
`a ≠ b`, the fold of `[A, B]` into the empty accumulator holds `b` under `k`
and the fold of `[B, A]` holds `a`, so the two orders differ at `k`; a key of
only one of the two documents has that document's value in both orders; and
the loop of `runHelm`, run with this merge on two files that parse to `A` and
`B`, returns the fold in the order of its source list. -/
theorem merge_order_matters (A B : Document) (k a b : String)
    (hA : A.lookup k = some (Value.scalar a)) (hB : B.lookup k = some (Value.scalar b))
    (hab : a ≠ b) :
    (mergeAll [A, B]).lookup k = some (Value.scalar b) ∧
    (mergeAll [B, A]).lookup k = some (Value.scalar a) ∧
    (mergeAll [A, B]).lookup k ≠ (mergeAll [B, A]).lookup k ∧
    (∀ j, B.lookup j = none →
      (mergeAll [A, B]).lookup j = A.lookup j ∧ (mergeAll [B, A]).lookup j = A.lookup j) ∧
    (∀ j, A.lookup j = none →
      (mergeAll [A, B]).lookup j = B.lookup j ∧ (mergeAll [B, A]).lookup j = B.lookup j) ∧
    (∀ (w : World) (fA fB : String),
      (∀ x y, w.merge x y = Except.ok (mergoMergeWithOverride x y)) →
      parsesTo w fA A → parsesTo w fB B →
      (mergeLoop w [fA, fB] []).1 = Except.ok (mergeAll [A, B]) ∧
      (mergeLoop w [fB, fA] []).1 = Except.ok (mergeAll [B, A])) := by
  have h1 : (mergeAll [A, B]).lookup k = some (Value.scalar b) := by
    rw [lookup_mergeAll_pair, hB]
    simp [mergeValue_scalar]
  have h2 : (mergeAll [B, A]).lookup k = some (Value.scalar a) := by
    rw [lookup_mergeAll_pair, hA]
    simp [mergeValue_scalar]
  refine ⟨h1, h2, ?_, ?_, ?_, ?_⟩
  · rw [h1, h2]
    intro h
    injection h with h
    injection h with h
    exact hab h.symm
  · intro j hj
    refine ⟨?_, ?_⟩
    · rw [lookup_mergeAll_pair, hj]
    · rw [lookup_mergeAll_pair, hj]
      cases A.lookup j <;> simp [mergeValue_none]
  · intro j hj
    refine ⟨?_, ?_⟩
    · rw [lookup_mergeAll_pair, hj]
      cases B.lookup j <;> simp [mergeValue_none]
    · rw [lookup_mergeAll_pair, hj]
  · intro w fA fB hmerge hpA hpB
    exact ⟨mergeLoop_eq_foldl w hmerge [fA, fB] [A, B]
        (List.Forall₂.cons hpA (List.Forall₂.cons hpB List.Forall₂.nil)) [],
      mergeLoop_eq_foldl w hmerge [fB, fA] [B, A]
        (List.Forall₂.cons hpB (List.Forall₂.cons hpA List.Forall₂.nil)) []⟩

/-- C7, at `A = {replicas: 1, image: nginx}` and `B = {replicas: 3}`. -/
theorem merge_order_matters_witness :
    (mergeAll [[("replicas", Value.scalar "1"), ("image", Value.scalar "nginx")],
        [("replicas", Value.scalar "3")]]).lookup "replicas" = some (Value.scalar "3") ∧
    (mergeAll [[("replicas", Value.scalar "3")],
        [("replicas", Value.scalar "1"), ("image", Value.scalar "nginx")]]).lookup "replicas"
      = some (Value.scalar "1") :=
  have h := merge_order_matters
    [("replicas", Value.scalar "1"), ("image", Value.scalar "nginx")]
    [("replicas", Value.scalar "3")] "replicas" "1" "3" rfl rfl (by decide)
  ⟨h.1, h.2.1⟩

/-- C8: when `A` and `B` both hold a mapping under `k`, the merged document
holds under `k` the merge of the two mappings: its keys are those of either,
a key of the later mapping has the later value merged onto the earlier one,
and any other key keeps the earlier value.  Merging a value onto another
recurses when both are mappings and returns the later value otherwise, so a
later scalar, sequence or mapping replaces an earlier value of another kind
and a later sequence replaces an earlier sequence.  `{a: 1, b: {c: 2}}` then
`{b: {c: 3, d: 4}}` gives `{a: 1, b: {c: 3, d: 4}}`. -/
theorem merge_recurses_on_mappings_only (A B : Document) (k : String) :
    (∀ mA mB, A.lookup k = some (Value.mapping mA) → B.lookup k = some (Value.mapping mB) →
      (mergeAll [A, B]).lookup k = some (Value.mapping (mergoMergeWithOverride mA mB)) ∧
      ∀ j,
        ((mergoMergeWithOverride mA mB).lookup j).isSome
          = ((mA.lookup j).isSome || (mB.lookup j).isSome) ∧
        (mB.lookup j = none → (mergoMergeWithOverride mA mB).lookup j = mA.lookup j) ∧
        (∀ vB, mB.lookup j = some vB →
          (mergoMergeWithOverride mA mB).lookup j = some (mergeValue (mA.lookup j) vB))) ∧
    (∀ x y, mergeValue (some (Value.mapping x)) (Value.mapping y)
      = Value.mapping (mergoMergeWithOverride x y)) ∧
    (∀ old vB, (∀ x y, ¬ (old = some (Value.mapping x) ∧ vB = Value.mapping y)) →
      mergeValue old vB = vB) ∧
    (∀ vB, B.lookup k = some vB →
      (∀ x y, ¬ (A.lookup k = some (Value.mapping x) ∧ vB = Value.mapping y)) →
      (mergeAll [A, B]).lookup k = some vB) ∧
    (∀ xs ys, A.lookup k = some (Value.sequence xs) → B.lookup k = some (Value.sequence ys) →
      (mergeAll [A, B]).lookup k = some (Value.sequence ys)) ∧
    ((mergeAll [[("a", Value.scalar "1"), ("b", Value.mapping [("c", Value.scalar "2")])],
        [("b", Value.mapping [("c", Value.scalar "3"), ("d", Value.scalar "4")])]]).lookup "a"
        = some (Value.scalar "1") ∧
      (mergeAll [[("a", Value.scalar "1"), ("b", Value.mapping [("c", Value.scalar "2")])],
        [("b", Value.mapping [("c", Value.scalar "3"), ("d", Value.scalar "4")])]]).lookup "b"
        = some (Value.mapping [("c", Value.scalar "3"), ("d", Value.scalar "4")]) ∧
      ∀ j, j ≠ "a" → j ≠ "b" →
        (mergeAll [[("a", Value.scalar "1"), ("b", Value.mapping [("c", Value.scalar "2")])],
          [("b", Value.mapping [("c", Value.scalar "3"), ("d", Value.scalar "4")])]]).lookup j
          = none) := by
  have hnb : ∀ old vB, (∀ x y, ¬ (old = some (Value.mapping x) ∧ vB = Value.mapping y)) →
      mergeValue old vB = vB := by
    intro old vB h
    cases vB with
    | scalar t => simp [mergeValue]
    | sequence xs => simp [mergeValue]
    | mapping y =>
      cases old with
      | none => simp [mergeValue]
      | some o =>
        cases o with
        | scalar t => simp [mergeValue]
        | sequence xs => simp [mergeValue]
        | mapping x => exact absurd ⟨rfl, rfl⟩ (h x y)
  refine ⟨?_, ?_, hnb, ?_, ?_, ?_, ?_, ?_⟩
  · intro mA mB hA hB
    refine ⟨?_, ?_⟩
    · rw [lookup_mergeAll_pair, hB, hA]
      simp [mergeValue]
    · intro j
      refine ⟨?_, ?_, ?_⟩
      · rw [lookup_mergoMergeWithOverride]
        cases mB.lookup j <;> simp
      · intro h
        rw [lookup_mergoMergeWithOverride, h]
      · intro vB h
        rw [lookup_mergoMergeWithOverride, h]
  · intro x y
    simp [mergeValue]
  · intro vB hB h
    rw [lookup_mergeAll_pair, hB]
    simp [hnb _ _ h]
  · intro xs ys _ hB
    rw [lookup_mergeAll_pair, hB]
    simp [mergeValue_sequence]
  · rfl
  · rfl
  · intro j ha hb
    rw [lookup_mergeAll_pair]
    simp [lookup_cons_eq, ha, hb]

/-! ## Fail-fast merge -/

theorem foldl_exit_code (errs : List String) (h : errs ≠ []) :
    errs.foldl (fun _ _ => 1) 0 = 1 := by
  have key : ∀ (l : List String) (c : Nat), l ≠ [] → l.foldl (fun _ _ => 1) c = 1 := by
    intro l
    induction l with
    | nil => intro c hc; exact absurd rfl hc
    | cons x xs ih =>
      intro c _
      cases xs with
      | nil => rfl
      | cons y ys => exact ih 1 (by simp)
  exact key errs 0 h

/-- With a file that cannot be read or parsed after files that can, the
loop ends in an error and reads no file after the bad one, whatever the
merge does. -/
theorem mergeLoop_stops (w : World) (pre post : List String) (bad e : String)
    (hpre : ∀ f ∈ pre, fileError w f = none) (hbad : fileError w bad = some e)
    (acc : Document) :
    (∃ err, (mergeLoop w (pre ++ bad :: post) acc).1 = Except.error err) ∧
    (mergeLoop w (pre ++ bad :: post) acc).2.filterMap Event.readName? <+: pre ++ [bad] := by
  induction pre generalizing acc with
  | nil =>
    simp only [List.nil_append]
    unfold mergeLoop
    unfold fileError at hbad
    cases h1 : w.readFile bad with
    | error err => simp [Event.readName?]
    | ok data =>
      simp only [h1] at hbad
      dsimp only
      cases h2 : w.unmarshal data with
      | error err => simp [Event.readName?]
      | ok parsed => simp [h2] at hbad
  | cons f pre ih =>
    have hf := hpre f (by simp)
    have ih' := ih (fun g hg => hpre g (by simp [hg]))
    simp only [List.cons_append]
    unfold mergeLoop
    unfold fileError at hf
    cases h1 : w.readFile f with
    | error err => simp [h1] at hf
    | ok data =>
      simp only [h1] at hf
      dsimp only
      cases h2 : w.unmarshal data with
      | error err => simp [h2] at hf
      | ok parsed =>
        dsimp only
        cases h3 : w.merge acc (parsed.getD []) with
        | error err =>
          refine ⟨⟨_, rfl⟩, ?_⟩
          simp [Event.readName?, List.prefix_cons_inj]
        | ok merged =>
          dsimp only
          obtain ⟨hi1, hi2⟩ := ih' merged
          refine ⟨hi1, ?_⟩
          simpa [Event.readName?, List.prefix_cons_inj] using hi2

/-- With a merge that does not fail, the error is the one of the bad file and
the files read are exactly those up to it. -/
theorem mergeLoop_first_error (w : World) (pre post : List String) (bad e : String)
    (hpre : ∀ f ∈ pre, fileError w f = none) (hbad : fileError w bad = some e)
    (hmerge : ∀ a b, ∃ c, w.merge a b = Except.ok c) (acc : Document) :
    (mergeLoop w (pre ++ bad :: post) acc).1 = Except.error e ∧
    (mergeLoop w (pre ++ bad :: post) acc).2.filterMap Event.readName? = pre ++ [bad] := by
  induction pre generalizing acc with
  | nil =>
    simp only [List.nil_append]
    unfold mergeLoop
    unfold fileError at hbad
    cases h1 : w.readFile bad with
    | error err =>
      simp only [h1, Option.some.injEq] at hbad
      simp [Event.readName?, hbad]
    | ok data =>
      simp only [h1] at hbad
      dsimp only
      cases h2 : w.unmarshal data with
      | error err =>
        simp only [h2, Option.some.injEq] at hbad
        simp [Event.readName?, hbad]
      | ok parsed => simp [h2] at hbad
  | cons f pre ih =>
    have hf := hpre f (by simp)
    have ih' := ih (fun g hg => hpre g (by simp [hg]))
    simp only [List.cons_append]
    unfold mergeLoop
    unfold fileError at hf
    cases h1 : w.readFile f with
    | error err => simp [h1] at hf
    | ok data =>
      simp only [h1] at hf
      dsimp only
      cases h2 : w.unmarshal data with
      | error err => simp [h2] at hf
      | ok parsed =>
        dsimp only
        obtain ⟨merged, h3⟩ := hmerge acc (parsed.getD [])
        simp only [h3]
        obtain ⟨hi1, hi2⟩ := ih' merged
        refine ⟨hi1, ?_⟩
        simp [Event.readName?, hi2]

theorem runHelmBody_of_merge_error (w : World) (helmPath tmp err : String)
    (h : (mergeLoop w (rewriteArgs tmp w.args).sourceValueFiles []).1 = Except.error err) :
    runHelmBody w helmPath tmp
      = ([err], (mergeLoop w (rewriteArgs tmp w.args).sourceValueFiles []).2) := by
  unfold runHelmBody
  simp only
  generalize mergeLoop w (rewriteArgs tmp w.args).sourceValueFiles [] = r at h ⊢
  obtain ⟨res, trace⟩ := r
  simp only at h
  subst h
  rfl

theorem runHelm_of_ok (w : World) (helmPath tmp : String)
    (h1 : w.lookPath (if helmCmdRegex w.executableName then "_" ++ w.executableName
      else "helm") = Except.ok helmPath)
    (h2 : w.tempDir (w.executableName ++ ".") = Except.ok tmp) :
    (runHelm w).2 =
        [Event.lookPath (if helmCmdRegex w.executableName then "_" ++ w.executableName
            else "helm"),
          Event.tempDir (w.executableName ++ ".")]
          ++ (runHelmBody w helmPath tmp).2 ++ [Event.removeAll tmp] ∧
      (runHelmBody w helmPath tmp).1 <+: (runHelm w).1 := by
  unfold runHelm
  simp only [h1, h2]
  split <;> simp

/-- C9: when the source list is `pre ++ bad :: post`, every file of `pre` is
read and parsed, and `bad` cannot be read or, being read, cannot be parsed,
with `e` the error naming it, then `main` exits with 1, `runHelm` performs no
evaluation, serialization, write or Helm invocation, and the files it reads
are a prefix of `pre ++ [bad]`, so none after `bad`.  Once Helm is found, the
temporary directory exists and no earlier merge fails, the first error
returned is `e`, the body returns `e` alone, and the files read are exactly
`pre ++ [bad]`. -/
theorem merger_fails_fast (w : World) (pre post : List String) (bad e : String)
    (hsrc : ∀ tmp, (rewriteArgs tmp w.args).sourceValueFiles = pre ++ bad :: post)
    (hpre : ∀ f ∈ pre, fileError w f = none)
    (hbad : fileError w bad = some e) :
    main w = 1 ∧
    (∀ ev ∈ (runHelm w).2, ev.isDownstream = false) ∧
    (runHelm w).2.filterMap Event.readName? <+: pre ++ [bad] ∧
    (∀ helmPath tmp,
      w.lookPath (if helmCmdRegex w.executableName then "_" ++ w.executableName else "helm")
        = Except.ok helmPath →
      w.tempDir (w.executableName ++ ".") = Except.ok tmp →
      (∀ a b, ∃ c, w.merge a b = Except.ok c) →
      (runHelm w).1.head? = some e ∧
      (runHelmBody w helmPath tmp).1 = [e] ∧
      (runHelm w).2.filterMap Event.readName? = pre ++ [bad]) := by
  have hbody : ∀ helmPath tmp, ∃ err,
      runHelmBody w helmPath tmp = ([err], (mergeLoop w (pre ++ bad :: post) []).2) := by
    intro helmPath tmp
    obtain ⟨err, herr⟩ := (mergeLoop_stops w pre post bad e hpre hbad []).1
    refine ⟨err, ?_⟩
    have := runHelmBody_of_merge_error w helmPath tmp err (by rw [hsrc tmp]; exact herr)
    rw [hsrc tmp] at this
    exact this
  refine ⟨?_, ?_, ?_, ?_⟩
  · unfold main
    apply foldl_exit_code
    rcases runHelm_trace w with ⟨_, hne, _⟩ | ⟨helmPath, tmp, _, _, _, hpfx⟩
    · exact hne
    · obtain ⟨err, hb⟩ := hbody helmPath tmp
      rw [hb] at hpfx
      intro hnil
      rw [hnil] at hpfx
      simp at hpfx
  · rcases runHelm_trace w with ⟨hall, _, _⟩ | ⟨helmPath, tmp, _, _, ht, _⟩
    · exact fun ev hev => (hall ev hev).2
    · obtain ⟨err, hb⟩ := hbody helmPath tmp
      intro ev hev
      rw [ht, hb] at hev
      simp only [List.mem_append, List.mem_cons, List.mem_singleton, List.not_mem_nil,
        or_false] at hev
      rcases hev with ((rfl | rfl) | hev) | rfl
      · rfl
      · rfl
      · exact mergeLoop_not_downstream w _ _ ev hev
      · rfl
  · rcases runHelm_trace w with ⟨_, _, hr⟩ | ⟨helmPath, tmp, _, _, ht, _⟩
    · rw [hr]
      exact List.nil_prefix
    · obtain ⟨err, hb⟩ := hbody helmPath tmp
      rw [ht, hb]
      simpa [Event.readName?] using (mergeLoop_stops w pre post bad e hpre hbad []).2
  · intro helmPath tmp h1 h2 hmerge
    obtain ⟨hm1, hm2⟩ := mergeLoop_first_error w pre post bad e hpre hbad hmerge []
    have hb := runHelmBody_of_merge_error w helmPath tmp e (by rw [hsrc tmp]; exact hm1)
    rw [hsrc tmp] at hb
    obtain ⟨ht, hpfx⟩ := runHelm_of_ok w helmPath tmp h1 h2
    refine ⟨?_, by rw [hb], ?_⟩
    · rw [hb] at hpfx
      obtain ⟨rest, hrest⟩ := hpfx
      rw [← hrest]
      rfl
    · rw [ht, hb]
      simpa [Event.readName?] using hm2

/-- C9, at `template -f base.yaml -f missing.yaml -f later.yaml` where
`missing.yaml` does not exist: the error names it, `later.yaml` is not read,
and the exit code is 1. -/
theorem merger_fails_fast_witness :
    main (sampleWorld ["template", "-f", "base.yaml", "-f", "missing.yaml", "-f", "later.yaml"]
        [("base.yaml", "a: 1"), ("later.yaml", "b: 2")]
        [("a: 1", [("a", Value.scalar "1")]), ("b: 2", [("b", Value.scalar "2")])]) = 1 ∧
    (runHelm (sampleWorld
        ["template", "-f", "base.yaml", "-f", "missing.yaml", "-f", "later.yaml"]
        [("base.yaml", "a: 1"), ("later.yaml", "b: 2")]
        [("a: 1", [("a", Value.scalar "1")]), ("b: 2", [("b", Value.scalar "2")])])).1.head?
      = some "failed to open values file 'missing.yaml': no such file or directory" ∧
    (runHelm (sampleWorld
        ["template", "-f", "base.yaml", "-f", "missing.yaml", "-f", "later.yaml"]
        [("base.yaml", "a: 1"), ("later.yaml", "b: 2")]
        [("a: 1", [("a", Value.scalar "1")]), ("b: 2", [("b", Value.scalar "2")])])).2.filterMap
        Event.readName?
      = ["base.yaml", "missing.yaml"] := by
  have h := merger_fails_fast
    (sampleWorld ["template", "-f", "base.yaml", "-f", "missing.yaml", "-f", "later.yaml"]
      [("base.yaml", "a: 1"), ("later.yaml", "b: 2")]
      [("a: 1", [("a", Value.scalar "1")]), ("b: 2", [("b", Value.scalar "2")])])
    ["base.yaml"] ["later.yaml"] "missing.yaml"
    "failed to open values file 'missing.yaml': no such file or directory"
    (fun tmp => by
      rw [rewriteArgs_eq]
      show recorded ["template", "-f", "base.yaml", "-f", "missing.yaml", "-f", "later.yaml"]
        = ["base.yaml"] ++ "missing.yaml" :: ["later.yaml"]
      decide)
    (by
      intro f hf
      simp only [List.mem_singleton] at hf
      subst hf
      rfl)
    rfl
  have h4 := h.2.2.2 "/usr/bin/_helm" "/tmp/helm.1" rfl rfl (fun a b => ⟨_, rfl⟩)
  exact ⟨h.1, h4.1, h4.2.2⟩

end HelmSpruce
